import Mathlib

/-!
Shallow embedding of `src/lib.rs` (a single-server shortest-processing-time
task scheduler with two implementations, `NaiveScheduler` and
`CleverScheduler`).

Modelling conventions:
* Rust `u32` / `u64` values are modelled as `Nat`; every arithmetic step the
  code performs on the `u32` clock (`current_time += d` and `queued_at + d`)
  is modelled with an explicit `% u32Mod` (release-mode wrapping semantics).
* `Vec<&Task>` becomes `List Task`; `Vec::pop` (removal of the last element)
  is `popLast`.
* `slice::sort_unstable_by(|a, b| b.queued_at.cmp(&a.queued_at))` is modelled
  by a stable insertion sort in descending `queued_at` order, which is exactly
  what Rust's unstable sort performs on slices of at most 20 elements (the
  pdqsort / ipnsort small-slice case is an insertion sort).  All concrete
  inputs appearing below have fewer than 20 tasks.
* `std::collections::BinaryHeap<TaskDurationDesc>` is modelled by its backing
  vector together with the exact `sift_up` / `sift_down_to_bottom` routines
  of the Rust standard library, specialised to the `TaskDurationDesc`
  comparator of the source (`cmp(self, other) = other.duration.cmp(self.duration)`).
* `slice::partition_point(|t| t.queued_at >= time)` is modelled as the length
  of the satisfying prefix (`takeWhile`); this agrees with Rust's binary
  search on every slice that is partitioned for the predicate, which holds in
  every state reachable from `new` because `unqueued_tasks` is kept sorted in
  descending `queued_at` order.
* `Option::unwrap` on the scheduler loop's `get_next_task` is modelled by
  truncating the run on `none`; the safety theorem for the relevant claim
  shows that branch is unreachable whenever `unfinished` holds.
-/

namespace CpuSched

/-- `Task` record from `src/lib.rs`: `id: u64`, `queued_at: u32`,
`execution_duration: u32`. -/
structure Task where
  id : Nat
  queued_at : Nat
  execution_duration : Nat
deriving DecidableEq, Inhabited

/-- Modulus of Rust `u32` arithmetic. -/
def u32Mod : Nat := 4294967296

/-- `Vec::pop`: removes and returns the last element. -/
def popLast : List Task → Option (Task × List Task)
  | [] => none
  | [x] => some (x, [])
  | x :: y :: xs =>
    match popLast (y :: xs) with
    | some (z, rest) => some (z, x :: rest)
    | none => none

/-- In-bounds swap of two positions of a list (identity out of bounds; the
heap routines below only ever swap in-bounds positions, where Rust's hole
based moves are exactly chains of swaps). -/
def swapNat (l : List Task) (i j : Nat) : List Task :=
  if i < l.length ∧ j < l.length then
    (l.set i (l.getD j default)).set j (l.getD i default)
  else l

/-- The `TaskDurationDesc` ordering of the source: `a ≤ b` in the heap order
iff `cmp(a, b) ≠ Greater`, i.e. iff `b.execution_duration ≤ a.execution_duration`
(the comparator inverts the duration order, turning the max-heap into a
min-duration heap). -/
def tdLe (a b : Task) : Bool :=
  b.execution_duration ≤ a.execution_duration

/-- Rust `BinaryHeap::sift_up` (hole moves rendered as swaps).  The fuel is
the initial position, which bounds the number of parent steps. -/
def siftUpAux : Nat → List Task → Nat → Nat → List Task
  | 0, data, _, _ => data
  | fuel + 1, data, start, pos =>
    if start < pos then
      let parent := (pos - 1) / 2
      if tdLe (data.getD pos default) (data.getD parent default) then data
      else siftUpAux fuel (swapNat data pos parent) start parent
    else data

/-- Rust `BinaryHeap::sift_up(start, pos)`. -/
def siftUp (data : List Task) (start pos : Nat) : List Task :=
  siftUpAux pos data start pos

/-- Descent loop of Rust `BinaryHeap::sift_down_to_bottom`: walk the hole to
the bottom of the heap, always choosing the greater child (ties to the right
child, per `child += (hole.get(child) <= hole.get(child + 1))`). -/
def siftDownLoop : Nat → List Task → Nat → Nat → List Task × Nat
  | 0, data, _, pos => (data, pos)
  | fuel + 1, data, e, pos =>
    let child := 2 * pos + 1
    if child + 2 ≤ e then
      let child :=
        if tdLe (data.getD child default) (data.getD (child + 1) default) then
          child + 1
        else child
      siftDownLoop fuel (swapNat data pos child) e child
    else if child + 1 = e then (swapNat data pos child, child)
    else (data, pos)

/-- Rust `BinaryHeap::sift_down_to_bottom(pos)` followed by the final
`sift_up(start, pos)` it performs. -/
def siftDownToBottom (data : List Task) (pos : Nat) : List Task :=
  let e := data.length
  let res := siftDownLoop e data e pos
  siftUp res.1 pos res.2

/-- Rust `BinaryHeap::push`: append, then sift the new element up from the
old length. -/
def heapPush (data : List Task) (x : Task) : List Task :=
  siftUp (data ++ [x]) 0 data.length

/-- Rust `BinaryHeap::pop`: remove the last element; if the heap is still
non-empty swap it with the root and sift down.  Returns the popped maximum
(under the `TaskDurationDesc` order: a minimum-duration task). -/
def heapPop (data : List Task) : Option (Task × List Task) :=
  match popLast data with
  | none => none
  | some (last, init) =>
    match init with
    | [] => some (last, [])
    | root :: tail => some (root, siftDownToBottom (last :: tail) 0)

/-- Accumulator loop of `get_shortest_task_ind`: scan the remaining tasks,
keeping the first index realising the strictly smallest duration seen. -/
def shortest_go : List Task → Nat → Nat → Nat → Nat
  | [], _, min_ind, _ => min_ind
  | task :: rest, min_duration, min_ind, i =>
    if task.execution_duration < min_duration then
      shortest_go rest task.execution_duration i (i + 1)
    else
      shortest_go rest min_duration min_ind (i + 1)

/-- `get_shortest_task_ind` from `src/lib.rs`: index of the first task of
minimal `execution_duration`, `none` on the empty list. -/
def get_shortest_task_ind : List Task → Option Nat
  | [] => none
  | first_task :: rest => some (shortest_go rest first_task.execution_duration 0 1)

/-- Stable insertion (descending `queued_at`) used to model
`sort_unstable_by(|a, b| b.queued_at.cmp(&a.queued_at))`. -/
def insertDescQ (t : Task) : List Task → List Task
  | [] => [t]
  | u :: rest =>
    if t.queued_at ≤ u.queued_at then u :: insertDescQ t rest
    else t :: u :: rest

/-- Sort in descending (reverse-chronological) `queued_at` order, as both
`new` implementations do before storing `unqueued_tasks`. -/
def sortDescQ (tasks : List Task) : List Task :=
  tasks.foldl (fun acc t => insertDescQ t acc) []

/-- State of `NaiveScheduler`. -/
structure NaiveScheduler where
  current_time : Nat
  current_queue : List Task
  unqueued_tasks : List Task
deriving DecidableEq, Inhabited

/-- `NaiveScheduler::unfinished`. -/
def NaiveScheduler.unfinished (s : NaiveScheduler) : Bool :=
  s.unqueued_tasks.length > 0 || s.current_queue.length > 0

/-- `NaiveScheduler::get_next_task`: take the first shortest ready task and
advance the clock by its duration; otherwise fast-forward by popping the last
(earliest queued) unqueued task and setting the clock to
`queued_at + execution_duration` (u32 wrapping). -/
def NaiveScheduler.get_next_task (s : NaiveScheduler) : Option (Task × NaiveScheduler) :=
  match get_shortest_task_ind s.current_queue with
  | some next_task_ind =>
    let next_task := s.current_queue.getD next_task_ind default
    some (next_task,
      { s with
        current_queue := s.current_queue.eraseIdx next_task_ind
        current_time := (s.current_time + next_task.execution_duration) % u32Mod })
  | none =>
    match popLast s.unqueued_tasks with
    | some (next_task, rest) =>
      some (next_task,
        { s with
          unqueued_tasks := rest
          current_time := (next_task.queued_at + next_task.execution_duration) % u32Mod })
    | none => none

/-- `NaiveScheduler::get_new_tasks`: pop from the end of `unqueued_tasks`
while the last task has `queued_at ≤ current_time` (rendered on the reversed
list as `takeWhile` / `dropWhile`), returning the popped tasks in pop order. -/
def NaiveScheduler.get_new_tasks (s : NaiveScheduler) : List Task × NaiveScheduler :=
  let rev := s.unqueued_tasks.reverse
  let new_tasks := rev.takeWhile (fun u => u.queued_at ≤ s.current_time)
  let remaining := (rev.dropWhile (fun u => u.queued_at ≤ s.current_time)).reverse
  (new_tasks, { s with unqueued_tasks := remaining })

/-- `NaiveScheduler::update_queue`: append the newly released tasks to the
ready queue. -/
def NaiveScheduler.update_queue (s : NaiveScheduler) : NaiveScheduler :=
  let res := s.get_new_tasks
  { res.2 with current_queue := s.current_queue ++ res.1 }

/-- `<NaiveScheduler as Scheduler>::new`. -/
def NaiveScheduler.new (tasks : List Task) : NaiveScheduler :=
  { current_time := 0
    current_queue := []
    unqueued_tasks := sortDescQ tasks }

/-- Number of not-yet-dispatched tasks: the scheduler loop runs exactly this
many iterations. -/
def NaiveScheduler.count (s : NaiveScheduler) : Nat :=
  s.unqueued_tasks.length + s.current_queue.length

/-- The `while self.unfinished()` loop of
`<NaiveScheduler as Scheduler>::execution_order`, with explicit fuel.  The
`none` branch models the `.unwrap()`; it is proved unreachable whenever
`unfinished` holds. -/
def NaiveScheduler.run : Nat → NaiveScheduler → List Nat
  | 0, _ => []
  | fuel + 1, s =>
    if s.unfinished then
      match s.get_next_task with
      | some (next_task, s') => next_task.id :: NaiveScheduler.run fuel s'.update_queue
      | none => []
    else []

/-- `<NaiveScheduler as Scheduler>::execution_order`. -/
def NaiveScheduler.execution_order (s : NaiveScheduler) : List Nat :=
  NaiveScheduler.run s.count s

/-- `NaiveScheduler::new(tasks).execution_order()`. -/
def naive_execution_order (tasks : List Task) : List Nat :=
  (NaiveScheduler.new tasks).execution_order

/-- State of `CleverScheduler`; `current_queue` is the backing vector of the
`BinaryHeap<TaskDurationDesc>`. -/
structure CleverScheduler where
  current_time : Nat
  unqueued_tasks : List Task
  current_queue : List Task
deriving DecidableEq, Inhabited

/-- `CleverScheduler::unfinished`. -/
def CleverScheduler.unfinished (s : CleverScheduler) : Bool :=
  s.unqueued_tasks.length > 0 || s.current_queue.length > 0

/-- The `for _ in 0..num_new_tasks` loop of
`CleverScheduler::queue_tasks_submitted_before`: pop from the end of
`unqueued_tasks` and push into the heap. -/
def CleverScheduler.push_new_tasks : Nat → CleverScheduler → CleverScheduler
  | 0, s => s
  | n + 1, s =>
    match popLast s.unqueued_tasks with
    | some (task, rest) =>
      CleverScheduler.push_new_tasks n
        { s with
          unqueued_tasks := rest
          current_queue := heapPush s.current_queue task }
    | none => s

/-- `CleverScheduler::queue_tasks_submitted_before(time)`: count the leading
tasks with `queued_at >= time` (the `partition_point`), then pop and push the
remaining `num_new_tasks` tasks. -/
def CleverScheduler.queue_tasks_submitted_before (s : CleverScheduler) (time : Nat) :
    CleverScheduler :=
  let num_later_tasks := (s.unqueued_tasks.takeWhile (fun u => time ≤ u.queued_at)).length
  let num_new_tasks := s.unqueued_tasks.length - num_later_tasks
  CleverScheduler.push_new_tasks num_new_tasks s

/-- `CleverScheduler::get_next_task`. -/
def CleverScheduler.get_next_task (s : CleverScheduler) : Option (Task × CleverScheduler) :=
  match heapPop s.current_queue with
  | some (task, rest) =>
    some (task,
      { s with
        current_queue := rest
        current_time := (s.current_time + task.execution_duration) % u32Mod })
  | none =>
    match popLast s.unqueued_tasks with
    | some (task, rest) =>
      some (task,
        { s with
          unqueued_tasks := rest
          current_time := (task.queued_at + task.execution_duration) % u32Mod })
    | none => none

/-- `CleverScheduler::update_queue`. -/
def CleverScheduler.update_queue (s : CleverScheduler) : CleverScheduler :=
  s.queue_tasks_submitted_before s.current_time

/-- `<CleverScheduler as Scheduler>::new`. -/
def CleverScheduler.new (tasks : List Task) : CleverScheduler :=
  { current_time := 0
    unqueued_tasks := sortDescQ tasks
    current_queue := [] }

/-- Number of not-yet-dispatched tasks held by a `CleverScheduler` state. -/
def CleverScheduler.count (s : CleverScheduler) : Nat :=
  s.unqueued_tasks.length + s.current_queue.length

/-- The `while self.unfinished()` loop of
`<CleverScheduler as Scheduler>::execution_order`, with explicit fuel. -/
def CleverScheduler.run : Nat → CleverScheduler → List Nat
  | 0, _ => []
  | fuel + 1, s =>
    if s.unfinished then
      match s.get_next_task with
      | some (next_task, s') => next_task.id :: CleverScheduler.run fuel s'.update_queue
      | none => []
    else []

/-- `<CleverScheduler as Scheduler>::execution_order`. -/
def CleverScheduler.execution_order (s : CleverScheduler) : List Nat :=
  CleverScheduler.run s.count s

/-- `CleverScheduler::new(tasks).execution_order()`. -/
def clever_execution_order (tasks : List Task) : List Nat :=
  (CleverScheduler.new tasks).execution_order

/-! ### Basic list helper lemmas -/

theorem popLast_eq_none {l : List Task} : popLast l = none ↔ l = [] := by
  constructor
  · intro h
    match l with
    | [] => rfl
    | [x] => simp [popLast] at h
    | x :: y :: xs =>
      rw [popLast] at h
      cases hrec : popLast (y :: xs) with
      | some p => rw [hrec] at h; simp at h
      | none =>
        have : y :: xs = [] := (@popLast_eq_none (y :: xs)).mp hrec
        simp at this
  · intro h; subst h; rfl

theorem popLast_eq_append {l rest : List Task} {x : Task}
    (h : popLast l = some (x, rest)) : l = rest ++ [x] := by
  match l with
  | [] => simp [popLast] at h
  | [y] =>
    simp [popLast] at h
    simp [h.1, h.2.symm]
  | y :: z :: xs =>
    rw [popLast] at h
    cases hrec : popLast (z :: xs) with
    | some p =>
      rw [hrec] at h
      simp at h
      obtain ⟨hx, hrest⟩ := h
      have := @popLast_eq_append (z :: xs) p.2 p.1 (by rw [hrec])
      subst hx
      rw [← hrest]
      simp [this]
    | none =>
      have : z :: xs = [] := popLast_eq_none.mp hrec
      simp at this

theorem popLast_append_singleton (rest : List Task) (x : Task) :
    popLast (rest ++ [x]) = some (x, rest) := by
  induction rest with
  | nil => rfl
  | cons y ys ih =>
    cases hys : ys ++ [x] with
    | nil => simp at hys
    | cons z zs =>
      rw [List.cons_append, hys]
      simp only [popLast]
      rw [← hys, ih]

theorem set_getD_self (l : List Task) (i : Nat) :
    l.set i (l.getD i default) = l := by
  induction l generalizing i with
  | nil => rfl
  | cons x xs ih =>
    cases i with
    | zero => rfl
    | succ n => rw [List.getD_cons_succ, List.set_cons_succ, ih]

theorem getD_cons_set_perm (xs : List Task) (k : Nat) (x : Task) (hk : k < xs.length) :
    List.Perm (xs.getD k default :: xs.set k x) (x :: xs) := by
  induction xs generalizing k with
  | nil => simp at hk
  | cons y ys ih =>
    cases k with
    | zero => exact List.Perm.swap x y ys
    | succ n =>
      have hn : n < ys.length := by simpa using hk
      rw [List.getD_cons_succ, List.set_cons_succ]
      exact ((List.Perm.swap y _ _).trans ((ih n hn).cons y)).trans
        (List.Perm.swap x y ys)

theorem setSwap_perm (l : List Task) (i j : Nat) (hi : i < l.length) (hj : j < l.length) :
    List.Perm ((l.set i (l.getD j default)).set j (l.getD i default)) l := by
  induction l generalizing i j with
  | nil => simp at hi
  | cons x xs ih =>
    cases i with
    | zero =>
      cases j with
      | zero =>
        simp only [List.getD_cons_zero, List.set_cons_zero]
        exact List.Perm.refl _
      | succ k =>
        have hk : k < xs.length := by simpa using hj
        simp only [List.getD_cons_succ, List.set_cons_zero, List.set_cons_succ,
          List.getD_cons_zero]
        exact getD_cons_set_perm xs k x hk
    | succ m =>
      have hm : m < xs.length := by simpa using hi
      cases j with
      | zero =>
        simp only [List.getD_cons_zero, List.set_cons_succ, List.set_cons_zero,
          List.getD_cons_succ]
        exact getD_cons_set_perm xs m x hm
      | succ k =>
        have hk : k < xs.length := by simpa using hj
        simp only [List.getD_cons_succ, List.set_cons_succ]
        exact (ih m k hm hk).cons x

theorem swapNat_perm (l : List Task) (i j : Nat) : List.Perm (swapNat l i j) l := by
  unfold swapNat
  by_cases h : i < l.length ∧ j < l.length
  · simp only [h, if_true]
    exact setSwap_perm l i j h.1 h.2
  · simp only [h, if_false]
    exact List.Perm.refl _

theorem siftUpAux_perm (fuel : Nat) (data : List Task) (start pos : Nat) :
    List.Perm (siftUpAux fuel data start pos) data := by
  induction fuel generalizing data pos with
  | zero => exact List.Perm.refl _
  | succ n ih =>
    rw [siftUpAux]
    by_cases h : start < pos
    · simp only [h, if_true]
      by_cases hle : tdLe (data.getD pos default) (data.getD ((pos - 1) / 2) default)
      · simp only [hle, if_true]
        exact List.Perm.refl _
      · simp only [hle, if_false]
        exact (ih _ _).trans (swapNat_perm data pos ((pos - 1) / 2))
    · simp only [h, if_false]
      exact List.Perm.refl _

theorem siftUp_perm (data : List Task) (start pos : Nat) :
    List.Perm (siftUp data start pos) data :=
  siftUpAux_perm pos data start pos

theorem siftDownLoop_perm (fuel : Nat) (data : List Task) (e pos : Nat) :
    List.Perm (siftDownLoop fuel data e pos).1 data := by
  induction fuel generalizing data pos with
  | zero => exact List.Perm.refl _
  | succ n ih =>
    rw [siftDownLoop]
    by_cases h : 2 * pos + 1 + 2 ≤ e
    · simp only [h, if_true]
      exact (ih _ _).trans (swapNat_perm data pos _)
    · simp only [h, if_false]
      by_cases h2 : 2 * pos + 1 + 1 = e
      · simp only [h2, if_true]
        exact swapNat_perm data pos _
      · simp only [h2, if_false]
        exact List.Perm.refl _

theorem siftDownToBottom_perm (data : List Task) (pos : Nat) :
    List.Perm (siftDownToBottom data pos) data := by
  unfold siftDownToBottom
  exact (siftUp_perm _ _ _).trans (siftDownLoop_perm _ _ _ _)

theorem heapPush_perm (data : List Task) (x : Task) :
    List.Perm (heapPush data x) (x :: data) := by
  unfold heapPush
  exact (siftUp_perm _ _ _).trans (List.perm_append_singleton x data)

theorem heapPop_eq_none {data : List Task} : heapPop data = none ↔ data = [] := by
  constructor
  · intro h
    unfold heapPop at h
    cases hp : popLast data with
    | none => exact popLast_eq_none.mp hp
    | some p =>
      obtain ⟨last, init⟩ := p
      rw [hp] at h
      cases init with
      | nil => simp at h
      | cons r t => simp at h
  · intro h; subst h; rfl

theorem heapPop_perm {data rest : List Task} {x : Task}
    (h : heapPop data = some (x, rest)) : List.Perm (x :: rest) data := by
  unfold heapPop at h
  cases hp : popLast data with
  | none => rw [hp] at h; simp at h
  | some p =>
    obtain ⟨last, init⟩ := p
    rw [hp] at h
    have hdata : data = init ++ [last] := popLast_eq_append hp
    cases init with
    | nil =>
      simp at h
      obtain ⟨hx, hrest⟩ := h
      subst hx
      subst hrest
      rw [hdata]
      exact List.Perm.refl _
    | cons r t =>
      simp at h
      obtain ⟨hx, hrest⟩ := h
      subst hx
      subst hrest
      rw [hdata]
      exact ((siftDownToBottom_perm (last :: t) 0).cons r).trans
        (((List.perm_append_singleton last t).symm).cons r)

/-! ### Properties of `get_shortest_task_ind` -/

theorem getD_mem {xs : List Task} {n : Nat} (hn : n < xs.length) :
    xs.getD n default ∈ xs := by
  rw [List.getD_eq_getElem _ _ hn]
  exact List.getElem_mem hn

theorem shortest_go_spec (l : List Task) (d m i : Nat) :
    (shortest_go l d m i = m ∧ ∀ x ∈ l, d ≤ x.execution_duration) ∨
    (∃ k, k < l.length ∧ shortest_go l d m i = i + k ∧
      (l.getD k default).execution_duration < d ∧
      (∀ j, j < k →
        (l.getD k default).execution_duration < (l.getD j default).execution_duration) ∧
      (∀ j, k ≤ j → j < l.length →
        (l.getD k default).execution_duration ≤ (l.getD j default).execution_duration)) := by
  induction l generalizing d m i with
  | nil =>
    left
    exact ⟨rfl, by simp⟩
  | cons x xs ih =>
    rw [shortest_go]
    by_cases hx : x.execution_duration < d
    · simp only [hx, if_true]
      rcases ih x.execution_duration i (i + 1) with ⟨heq, hall⟩ | ⟨k, hk, heq, hlt, hstrict, hmin⟩
      · right
        refine ⟨0, by simp, by omega, by simpa using hx, ?_, ?_⟩
        · intro j hj; omega
        · intro j _ hj
          cases j with
          | zero => simp
          | succ n =>
            have hn : n < xs.length := by simpa using hj
            simp only [List.getD_cons_zero, List.getD_cons_succ]
            exact hall _ (getD_mem hn)
      · right
        refine ⟨k + 1, by simpa using hk, by omega, ?_, ?_, ?_⟩
        · simp only [List.getD_cons_succ]
          exact lt_trans hlt hx
        · intro j hj
          cases j with
          | zero =>
            simp only [List.getD_cons_succ, List.getD_cons_zero]
            exact hlt
          | succ n =>
            have hn : n < k := by omega
            simp only [List.getD_cons_succ]
            exact hstrict n hn
        · intro j hjk hj
          cases j with
          | zero => omega
          | succ n =>
            have h1 : k ≤ n := by omega
            have h2 : n < xs.length := by simpa using hj
            simp only [List.getD_cons_succ]
            exact hmin n h1 h2
    · simp only [hx, if_false]
      rcases ih d m (i + 1) with ⟨heq, hall⟩ | ⟨k, hk, heq, hlt, hstrict, hmin⟩
      · left
        refine ⟨heq, ?_⟩
        intro y hy
        rcases List.mem_cons.mp hy with hy | hy
        · subst hy; omega
        · exact hall y hy
      · right
        refine ⟨k + 1, by simpa using hk, by omega, by simpa using hlt, ?_, ?_⟩
        · intro j hj
          cases j with
          | zero =>
            simp only [List.getD_cons_succ, List.getD_cons_zero]
            omega
          | succ n =>
            have hn : n < k := by omega
            simp only [List.getD_cons_succ]
            exact hstrict n hn
        · intro j hjk hj
          cases j with
          | zero => omega
          | succ n =>
            simp only [List.getD_cons_succ]
            exact hmin n (by omega) (by simpa using hj)

theorem get_shortest_eq_none {l : List Task} : get_shortest_task_ind l = none ↔ l = [] := by
  cases l with
  | nil => simp [get_shortest_task_ind]
  | cons x xs => simp [get_shortest_task_ind]

theorem get_shortest_spec (l : List Task) (hl : l ≠ []) :
    ∃ ind, get_shortest_task_ind l = some ind ∧ ind < l.length ∧
      (∀ j, j < l.length →
        (l.getD ind default).execution_duration ≤ (l.getD j default).execution_duration) ∧
      (∀ j, j < ind →
        (l.getD ind default).execution_duration < (l.getD j default).execution_duration) := by
  match l with
  | [] => exact absurd rfl hl
  | first :: rest =>
    rw [get_shortest_task_ind]
    rcases shortest_go_spec rest first.execution_duration 0 1 with
      ⟨heq, hall⟩ | ⟨k, hk, heq, hlt, hstrict, hmin⟩
    · refine ⟨0, by rw [heq], by simp, ?_, by omega⟩
      intro j hj
      cases j with
      | zero => exact le_refl _
      | succ n =>
        have hn : n < rest.length := by simpa using hj
        simp only [List.getD_cons_zero, List.getD_cons_succ]
        exact hall _ (getD_mem hn)
    · refine ⟨1 + k, by rw [heq], by simp only [List.length_cons]; omega, ?_, ?_⟩
      · intro j hj
        have hgi : (1 : Nat) + k = k + 1 := by omega
        cases j with
        | zero =>
          simp only [hgi, List.getD_cons_succ, List.getD_cons_zero]
          exact le_of_lt hlt
        | succ n =>
          have hn : n < rest.length := by simpa using hj
          simp only [hgi, List.getD_cons_succ]
          by_cases hnk : n < k
          · exact le_of_lt (hstrict n hnk)
          · exact hmin n (by omega) hn
      · intro j hj
        have hgi : (1 : Nat) + k = k + 1 := by omega
        rw [hgi] at hj
        cases j with
        | zero =>
          simp only [hgi, List.getD_cons_succ, List.getD_cons_zero]
          exact hlt
        | succ n =>
          have hn : n < k := by omega
          simp only [hgi, List.getD_cons_succ]
          exact hstrict n hn

theorem get_shortest_bound {l : List Task} {ind : Nat}
    (h : get_shortest_task_ind l = some ind) : ind < l.length := by
  have hl : l ≠ [] := by
    intro hnil
    subst hnil
    simp [get_shortest_task_ind] at h
  obtain ⟨ind', heq, hlt, -, -⟩ := get_shortest_spec l hl
  rw [heq] at h
  cases h
  exact hlt

/-! ### Erasing and sorting lemmas -/

theorem getD_cons_eraseIdx_perm (l : List Task) (i : Nat) (h : i < l.length) :
    List.Perm (l.getD i default :: l.eraseIdx i) l := by
  induction l generalizing i with
  | nil => simp at h
  | cons x xs ih =>
    cases i with
    | zero => simp [List.eraseIdx]
    | succ n =>
      have hn : n < xs.length := by simpa using h
      rw [List.getD_cons_succ, List.eraseIdx_cons_succ]
      exact (List.Perm.swap x _ _).trans ((ih n hn).cons x)

theorem insertDescQ_perm (t : Task) (l : List Task) :
    List.Perm (insertDescQ t l) (t :: l) := by
  induction l with
  | nil => exact List.Perm.refl _
  | cons u rest ih =>
    rw [insertDescQ]
    by_cases h : t.queued_at ≤ u.queued_at
    · simp only [h, if_true]
      exact (ih.cons u).trans (List.Perm.swap t u rest)
    · simp only [h, if_false]
      exact List.Perm.refl _

theorem sortDescQ_perm_aux (ts acc : List Task) :
    List.Perm (ts.foldl (fun acc t => insertDescQ t acc) acc) (acc ++ ts) := by
  induction ts generalizing acc with
  | nil => simp
  | cons t rest ih =>
    rw [List.foldl_cons]
    refine (ih (insertDescQ t acc)).trans ?_
    refine (List.Perm.append_right rest (insertDescQ_perm t acc)).trans ?_
    exact List.perm_middle.symm

theorem sortDescQ_perm (tasks : List Task) : List.Perm (sortDescQ tasks) tasks := by
  simpa using sortDescQ_perm_aux tasks []

/-- Reverse-chronological sortedness invariant of `unqueued_tasks`. -/
def sortedDescQ (l : List Task) : Prop :=
  l.Pairwise (fun a b => b.queued_at ≤ a.queued_at)

theorem insertDescQ_sorted {l : List Task} (t : Task) (h : sortedDescQ l) :
    sortedDescQ (insertDescQ t l) := by
  induction l with
  | nil => simp [insertDescQ, sortedDescQ]
  | cons u rest ih =>
    rw [insertDescQ]
    by_cases hle : t.queued_at ≤ u.queued_at
    · simp only [hle, if_true]
      rw [sortedDescQ, List.pairwise_cons]
      constructor
      · intro y hy
        rcases List.mem_cons.mp ((insertDescQ_perm t rest).mem_iff.mp hy) with hy | hy
        · subst hy; exact hle
        · exact (List.pairwise_cons.mp h).1 y hy
      · exact ih (List.pairwise_cons.mp h).2
    · simp only [hle, if_false]
      rw [sortedDescQ, List.pairwise_cons]
      constructor
      · intro y hy
        rcases List.mem_cons.mp hy with hy | hy
        · subst hy; omega
        · exact le_trans ((List.pairwise_cons.mp h).1 y hy) (by omega)
      · exact h

theorem sortDescQ_sorted_aux (ts acc : List Task) (hacc : sortedDescQ acc) :
    sortedDescQ (ts.foldl (fun acc t => insertDescQ t acc) acc) := by
  induction ts generalizing acc with
  | nil => exact hacc
  | cons t rest ih =>
    rw [List.foldl_cons]
    exact ih _ (insertDescQ_sorted t hacc)

theorem sortDescQ_sorted (tasks : List Task) : sortedDescQ (sortDescQ tasks) :=
  sortDescQ_sorted_aux tasks [] (by simp [sortedDescQ])

/-! ### Step lemmas for `NaiveScheduler` -/

theorem naive_unfinished_false {s : NaiveScheduler} (h : s.unfinished = false) :
    s.unqueued_tasks = [] ∧ s.current_queue = [] := by
  rw [NaiveScheduler.unfinished] at h
  simp only [Bool.or_eq_false_iff, decide_eq_false_iff_not, Nat.not_lt, Nat.le_zero] at h
  exact ⟨List.length_eq_zero.mp h.1, List.length_eq_zero.mp h.2⟩

theorem naive_unfinished_of_count_pos {s : NaiveScheduler} (h : 0 < s.count) :
    s.unfinished = true := by
  rw [NaiveScheduler.count] at h
  rw [NaiveScheduler.unfinished]
  rcases Nat.lt_or_ge 0 s.unqueued_tasks.length with h1 | h1
  · simp [h1]
  · have : 0 < s.current_queue.length := by omega
    simp [this]

theorem naive_next_isSome {s : NaiveScheduler} (h : s.unfinished = true) :
    s.get_next_task.isSome = true := by
  rw [NaiveScheduler.get_next_task]
  cases hq : get_shortest_task_ind s.current_queue with
  | some ind => rfl
  | none =>
    have hqe : s.current_queue = [] := get_shortest_eq_none.mp hq
    cases hp : popLast s.unqueued_tasks with
    | some p => rfl
    | none =>
      have hue : s.unqueued_tasks = [] := popLast_eq_none.mp hp
      rw [NaiveScheduler.unfinished, hqe, hue] at h
      simp at h

theorem naive_next_perm {s s' : NaiveScheduler} {x : Task}
    (h : s.get_next_task = some (x, s')) :
    List.Perm (x :: (s'.unqueued_tasks ++ s'.current_queue))
      (s.unqueued_tasks ++ s.current_queue) := by
  rw [NaiveScheduler.get_next_task] at h
  cases hq : get_shortest_task_ind s.current_queue with
  | some ind =>
    rw [hq] at h
    simp only [Option.some_inj, Prod.mk.injEq] at h
    obtain ⟨hx, hs'⟩ := h
    have hbound : ind < s.current_queue.length := get_shortest_bound hq
    subst hx
    rw [← hs']
    simp only
    exact (List.perm_middle.symm).trans
      (List.Perm.append_left s.unqueued_tasks (getD_cons_eraseIdx_perm _ ind hbound))
  | none =>
    rw [hq] at h
    cases hp : popLast s.unqueued_tasks with
    | some p =>
      obtain ⟨task, rest⟩ := p
      rw [hp] at h
      simp only [Option.some_inj, Prod.mk.injEq] at h
      obtain ⟨hx, hs'⟩ := h
      have hunq : s.unqueued_tasks = rest ++ [task] := popLast_eq_append hp
      subst hx
      rw [← hs']
      simp only
      rw [hunq]
      exact List.Perm.append_right s.current_queue
        ((List.perm_append_singleton task rest).symm)
    | none => rw [hp] at h; simp at h

theorem naive_update_time (s : NaiveScheduler) :
    s.update_queue.current_time = s.current_time := rfl

theorem naive_update_perm (s : NaiveScheduler) :
    List.Perm (s.update_queue.unqueued_tasks ++ s.update_queue.current_queue)
      (s.unqueued_tasks ++ s.current_queue) := by
  rw [NaiveScheduler.update_queue, NaiveScheduler.get_new_tasks]
  simp only
  set p : Task → Bool := fun u => u.queued_at ≤ s.current_time with hp
  set rev := s.unqueued_tasks.reverse with hrev
  have h1 : List.Perm (rev.dropWhile p ++ rev.takeWhile p) rev := by
    have := @List.perm_append_comm Task (rev.dropWhile p) (rev.takeWhile p)
    rwa [List.takeWhile_append_dropWhile] at this
  have h2 : List.Perm rev s.unqueued_tasks := List.reverse_perm s.unqueued_tasks
  have h3 : List.Perm ((rev.dropWhile p).reverse ++ rev.takeWhile p) s.unqueued_tasks :=
    (((List.reverse_perm _).append_right _).trans h1).trans h2
  refine (List.Perm.append_left _ List.perm_append_comm).trans ?_
  rw [← List.append_assoc]
  exact h3.append_right _

theorem naive_next_count {s s' : NaiveScheduler} {x : Task}
    (h : s.get_next_task = some (x, s')) : s.count = s'.count + 1 := by
  have := (naive_next_perm h).length_eq
  simp only [List.length_cons, List.length_append] at this
  rw [NaiveScheduler.count, NaiveScheduler.count]
  omega

theorem naive_update_count (s : NaiveScheduler) : s.update_queue.count = s.count := by
  have := (naive_update_perm s).length_eq
  simp only [List.length_append] at this
  rw [NaiveScheduler.count, NaiveScheduler.count]
  omega

theorem naive_run_perm : ∀ (fuel : Nat) (s : NaiveScheduler), s.count ≤ fuel →
    List.Perm (NaiveScheduler.run fuel s)
      ((s.unqueued_tasks ++ s.current_queue).map Task.id) := by
  intro fuel
  induction fuel with
  | zero =>
    intro s hs
    have : s.count = 0 := Nat.le_zero.mp hs
    rw [NaiveScheduler.count] at this
    have h1 : s.unqueued_tasks = [] := List.length_eq_zero.mp (by omega)
    have h2 : s.current_queue = [] := List.length_eq_zero.mp (by omega)
    rw [NaiveScheduler.run, h1, h2]
    simp
  | succ n ih =>
    intro s hs
    rw [NaiveScheduler.run]
    by_cases h : s.unfinished
    · simp only [h, if_true]
      cases hn : s.get_next_task with
      | none =>
        have := naive_next_isSome h
        rw [hn] at this
        simp at this
      | some p =>
        obtain ⟨x, s'⟩ := p
        have hcount : s.count = s'.count + 1 := naive_next_count hn
        have hcount' : s'.update_queue.count ≤ n := by
          rw [naive_update_count]; omega
        refine ((ih _ hcount').cons x.id).trans ?_
        have hupd : List.Perm
            ((s'.update_queue.unqueued_tasks ++ s'.update_queue.current_queue).map Task.id)
            ((s'.unqueued_tasks ++ s'.current_queue).map Task.id) :=
          (naive_update_perm s').map Task.id
        refine (hupd.cons x.id).trans ?_
        have := (naive_next_perm hn).map Task.id
        simpa using this
    · simp only [h, if_false]
      have hb : s.unfinished = false := by
        cases hu : s.unfinished
        · rfl
        · exact absurd hu h
      obtain ⟨h1, h2⟩ := naive_unfinished_false hb
      rw [h1, h2]
      simp

theorem naive_run_fuel_add : ∀ (n k : Nat) (s : NaiveScheduler), s.count = n →
    NaiveScheduler.run (n + k) s = NaiveScheduler.run n s := by
  intro n
  induction n with
  | zero =>
    intro k s hs
    rw [NaiveScheduler.count] at hs
    have h1 : s.unqueued_tasks = [] := List.length_eq_zero.mp (by omega)
    have h2 : s.current_queue = [] := List.length_eq_zero.mp (by omega)
    have hfin : s.unfinished = false := by
      rw [NaiveScheduler.unfinished, h1, h2]; rfl
    cases k with
    | zero => rfl
    | succ m =>
      rw [Nat.zero_add]
      simp [NaiveScheduler.run, hfin]
  | succ n ih =>
    intro k s hs
    have hfin : s.unfinished = true := naive_unfinished_of_count_pos (by omega)
    have heq : n + 1 + k = (n + k) + 1 := by omega
    rw [heq]
    cases hn : s.get_next_task with
    | none =>
      have := naive_next_isSome hfin
      rw [hn] at this
      simp at this
    | some p =>
      obtain ⟨x, s'⟩ := p
      have hcount : s.count = s'.count + 1 := naive_next_count hn
      have hupd : s'.update_queue.count = n := by rw [naive_update_count]; omega
      simp only [NaiveScheduler.run, hfin, if_true, hn]
      rw [ih k _ hupd]

/-! ### Step lemmas for `CleverScheduler` -/

theorem clever_unfinished_false {s : CleverScheduler} (h : s.unfinished = false) :
    s.unqueued_tasks = [] ∧ s.current_queue = [] := by
  rw [CleverScheduler.unfinished] at h
  simp only [Bool.or_eq_false_iff, decide_eq_false_iff_not, Nat.not_lt, Nat.le_zero] at h
  exact ⟨List.length_eq_zero.mp h.1, List.length_eq_zero.mp h.2⟩

theorem clever_unfinished_of_count_pos {s : CleverScheduler} (h : 0 < s.count) :
    s.unfinished = true := by
  rw [CleverScheduler.count] at h
  rw [CleverScheduler.unfinished]
  rcases Nat.lt_or_ge 0 s.unqueued_tasks.length with h1 | h1
  · simp [h1]
  · have : 0 < s.current_queue.length := by omega
    simp [this]

theorem clever_next_isSome {s : CleverScheduler} (h : s.unfinished = true) :
    s.get_next_task.isSome = true := by
  rw [CleverScheduler.get_next_task]
  cases hq : heapPop s.current_queue with
  | some p => rfl
  | none =>
    have hqe : s.current_queue = [] := heapPop_eq_none.mp hq
    cases hp : popLast s.unqueued_tasks with
    | some p => rfl
    | none =>
      have hue : s.unqueued_tasks = [] := popLast_eq_none.mp hp
      rw [CleverScheduler.unfinished, hqe, hue] at h
      simp at h

theorem clever_next_perm {s s' : CleverScheduler} {x : Task}
    (h : s.get_next_task = some (x, s')) :
    List.Perm (x :: (s'.unqueued_tasks ++ s'.current_queue))
      (s.unqueued_tasks ++ s.current_queue) := by
  rw [CleverScheduler.get_next_task] at h
  cases hq : heapPop s.current_queue with
  | some p =>
    obtain ⟨task, rest⟩ := p
    rw [hq] at h
    simp only [Option.some_inj, Prod.mk.injEq] at h
    obtain ⟨hx, hs'⟩ := h
    subst hx
    rw [← hs']
    simp only
    exact (List.perm_middle.symm).trans
      (List.Perm.append_left s.unqueued_tasks (heapPop_perm hq))
  | none =>
    rw [hq] at h
    cases hp : popLast s.unqueued_tasks with
    | some p =>
      obtain ⟨task, rest⟩ := p
      rw [hp] at h
      simp only [Option.some_inj, Prod.mk.injEq] at h
      obtain ⟨hx, hs'⟩ := h
      have hunq : s.unqueued_tasks = rest ++ [task] := popLast_eq_append hp
      subst hx
      rw [← hs']
      simp only
      rw [hunq]
      exact List.Perm.append_right s.current_queue
        ((List.perm_append_singleton task rest).symm)
    | none => rw [hp] at h; simp at h

theorem cpush_time : ∀ (n : Nat) (s : CleverScheduler),
    (CleverScheduler.push_new_tasks n s).current_time = s.current_time := by
  intro n
  induction n with
  | zero => intro s; rfl
  | succ m ih =>
    intro s
    cases hp : popLast s.unqueued_tasks with
    | none => simp only [CleverScheduler.push_new_tasks, hp]
    | some p =>
      obtain ⟨task, rest⟩ := p
      simp only [CleverScheduler.push_new_tasks, hp]
      rw [ih]

theorem cpush_perm : ∀ (n : Nat) (s : CleverScheduler),
    List.Perm ((CleverScheduler.push_new_tasks n s).unqueued_tasks ++
      (CleverScheduler.push_new_tasks n s).current_queue)
      (s.unqueued_tasks ++ s.current_queue) := by
  intro n
  induction n with
  | zero => intro s; exact List.Perm.refl _
  | succ m ih =>
    intro s
    cases hp : popLast s.unqueued_tasks with
    | none =>
      simp only [CleverScheduler.push_new_tasks, hp]
      exact List.Perm.refl _
    | some p =>
      obtain ⟨task, rest⟩ := p
      have hunq : s.unqueued_tasks = rest ++ [task] := popLast_eq_append hp
      simp only [CleverScheduler.push_new_tasks, hp]
      refine (ih _).trans ?_
      simp only
      rw [hunq, List.append_assoc, List.singleton_append]
      exact List.Perm.append_left rest (heapPush_perm s.current_queue task)

theorem clever_update_time (s : CleverScheduler) :
    s.update_queue.current_time = s.current_time := by
  rw [CleverScheduler.update_queue, CleverScheduler.queue_tasks_submitted_before]
  exact cpush_time _ s

theorem clever_update_perm (s : CleverScheduler) :
    List.Perm (s.update_queue.unqueued_tasks ++ s.update_queue.current_queue)
      (s.unqueued_tasks ++ s.current_queue) := by
  rw [CleverScheduler.update_queue, CleverScheduler.queue_tasks_submitted_before]
  exact cpush_perm _ s

theorem clever_next_count {s s' : CleverScheduler} {x : Task}
    (h : s.get_next_task = some (x, s')) : s.count = s'.count + 1 := by
  have := (clever_next_perm h).length_eq
  simp only [List.length_cons, List.length_append] at this
  rw [CleverScheduler.count, CleverScheduler.count]
  omega

theorem clever_update_count (s : CleverScheduler) : s.update_queue.count = s.count := by
  have := (clever_update_perm s).length_eq
  simp only [List.length_append] at this
  rw [CleverScheduler.count, CleverScheduler.count]
  omega

theorem clever_run_perm : ∀ (fuel : Nat) (s : CleverScheduler), s.count ≤ fuel →
    List.Perm (CleverScheduler.run fuel s)
      ((s.unqueued_tasks ++ s.current_queue).map Task.id) := by
  intro fuel
  induction fuel with
  | zero =>
    intro s hs
    have : s.count = 0 := Nat.le_zero.mp hs
    rw [CleverScheduler.count] at this
    have h1 : s.unqueued_tasks = [] := List.length_eq_zero.mp (by omega)
    have h2 : s.current_queue = [] := List.length_eq_zero.mp (by omega)
    rw [CleverScheduler.run, h1, h2]
    simp
  | succ n ih =>
    intro s hs
    rw [CleverScheduler.run]
    by_cases h : s.unfinished
    · simp only [h, if_true]
      cases hn : s.get_next_task with
      | none =>
        have := clever_next_isSome h
        rw [hn] at this
        simp at this
      | some p =>
        obtain ⟨x, s'⟩ := p
        have hcount : s.count = s'.count + 1 := clever_next_count hn
        have hcount' : s'.update_queue.count ≤ n := by
          rw [clever_update_count]; omega
        refine ((ih _ hcount').cons x.id).trans ?_
        have hupd : List.Perm
            ((s'.update_queue.unqueued_tasks ++ s'.update_queue.current_queue).map Task.id)
            ((s'.unqueued_tasks ++ s'.current_queue).map Task.id) :=
          (clever_update_perm s').map Task.id
        refine (hupd.cons x.id).trans ?_
        have := (clever_next_perm hn).map Task.id
        simpa using this
    · simp only [h, if_false]
      have hb : s.unfinished = false := by
        cases hu : s.unfinished
        · rfl
        · exact absurd hu h
      obtain ⟨h1, h2⟩ := clever_unfinished_false hb
      rw [h1, h2]
      simp

theorem clever_run_fuel_add : ∀ (n k : Nat) (s : CleverScheduler), s.count = n →
    CleverScheduler.run (n + k) s = CleverScheduler.run n s := by
  intro n
  induction n with
  | zero =>
    intro k s hs
    rw [CleverScheduler.count] at hs
    have h1 : s.unqueued_tasks = [] := List.length_eq_zero.mp (by omega)
    have h2 : s.current_queue = [] := List.length_eq_zero.mp (by omega)
    have hfin : s.unfinished = false := by
      rw [CleverScheduler.unfinished, h1, h2]; rfl
    cases k with
    | zero => rfl
    | succ m =>
      rw [Nat.zero_add]
      simp [CleverScheduler.run, hfin]
  | succ n ih =>
    intro k s hs
    have hfin : s.unfinished = true := clever_unfinished_of_count_pos (by omega)
    have heq : n + 1 + k = (n + k) + 1 := by omega
    rw [heq]
    cases hn : s.get_next_task with
    | none =>
      have := clever_next_isSome hfin
      rw [hn] at this
      simp at this
    | some p =>
      obtain ⟨x, s'⟩ := p
      have hcount : s.count = s'.count + 1 := clever_next_count hn
      have hupd : s'.update_queue.count = n := by rw [clever_update_count]; omega
      simp only [CleverScheduler.run, hfin, if_true, hn]
      rw [ih k _ hupd]

/-! ### Claim theorems -/

/-- C1 (code bug): `NaiveScheduler::execution_order` and
`CleverScheduler::execution_order`, constructed via `new` on the same slice,
do NOT always return identical sequences.  On the input
`[{id 1, queued_at 0, dur 2}, {id 2, queued_at 1, dur 9}, {id 3, queued_at 2, dur 1}]`
the naive scheduler yields `[1, 3, 2]` but the clever one yields `[1, 2, 3]`:
`queue_tasks_submitted_before` uses the strict predicate `queued_at >= time`
(keeping a task that arrives exactly when the previous one completes out of
the ready set), while the naive scheduler admits with `queued_at <= time`. -/
theorem c1_schedulers_disagree_on_boundary_arrival :
    naive_execution_order [⟨1, 0, 2⟩, ⟨2, 1, 9⟩, ⟨3, 2, 1⟩] = [1, 3, 2] ∧
    clever_execution_order [⟨1, 0, 2⟩, ⟨2, 1, 9⟩, ⟨3, 2, 1⟩] = [1, 2, 3] ∧
    naive_execution_order [⟨1, 0, 2⟩, ⟨2, 1, 9⟩, ⟨3, 2, 1⟩] ≠
      clever_execution_order [⟨1, 0, 2⟩, ⟨2, 1, 9⟩, ⟨3, 2, 1⟩] := by
  refine ⟨by decide, by decide, by decide⟩

/-- C2 (code bug): it is not the case that all not-yet-dispatched tasks with
`queued_at ≤ Clock` are admitted to the ready set before the next selection.
Clever side: after dispatching task 1 the clock is 2 and task 3 (queued at 2)
is still unqueued, yet `get_next_task` dispatches task 2 of duration 9 while
the eligible task 3 has duration 1.  Naive side: on the very first iteration
(clock 0) no admission happens at all, and the fast-forward dispatches the
duration-5 task although a duration-3 task with `queued_at = 0` exists. -/
theorem c2_eligible_task_not_admitted_before_selection :
    ((CleverScheduler.new [⟨1, 0, 2⟩, ⟨2, 1, 9⟩, ⟨3, 2, 1⟩]).get_next_task =
      some (⟨1, 0, 2⟩, ⟨2, [⟨3, 2, 1⟩, ⟨2, 1, 9⟩], []⟩)) ∧
    ((⟨2, [⟨3, 2, 1⟩, ⟨2, 1, 9⟩], []⟩ : CleverScheduler).update_queue =
      ⟨2, [⟨3, 2, 1⟩], [⟨2, 1, 9⟩]⟩) ∧
    ((⟨3, 2, 1⟩ : Task) ∈ (⟨2, [⟨3, 2, 1⟩], [⟨2, 1, 9⟩]⟩ : CleverScheduler).unqueued_tasks ∧
      (⟨3, 2, 1⟩ : Task).queued_at ≤
        (⟨2, [⟨3, 2, 1⟩], [⟨2, 1, 9⟩]⟩ : CleverScheduler).current_time) ∧
    ((⟨2, [⟨3, 2, 1⟩], [⟨2, 1, 9⟩]⟩ : CleverScheduler).get_next_task =
      some (⟨2, 1, 9⟩, ⟨11, [⟨3, 2, 1⟩], []⟩)) ∧
    ((⟨3, 2, 1⟩ : Task).execution_duration < (⟨2, 1, 9⟩ : Task).execution_duration) ∧
    ((NaiveScheduler.new [⟨2, 0, 3⟩, ⟨1, 0, 5⟩]).get_next_task =
      some (⟨1, 0, 5⟩, ⟨5, [], [⟨2, 0, 3⟩]⟩)) ∧
    ((⟨2, 0, 3⟩ : Task).queued_at ≤ (NaiveScheduler.new [⟨2, 0, 3⟩, ⟨1, 0, 5⟩]).current_time ∧
      (⟨2, 0, 3⟩ : Task).execution_duration < (⟨1, 0, 5⟩ : Task).execution_duration) := by
  refine ⟨by decide, by decide, ⟨by decide, by decide⟩, by decide, by decide, by decide,
    by decide, by decide⟩

/-- C3 (confirmed): for every input task collection the output of
`execution_order` is a permutation of the input's identifiers (hence of the
same length, with no identifier lost or duplicated), and the empty collection
yields the empty sequence — for both schedulers. -/
theorem c3_execution_order_is_permutation (tasks : List Task) :
    List.Perm (naive_execution_order tasks) (tasks.map Task.id) ∧
    List.Perm (clever_execution_order tasks) (tasks.map Task.id) ∧
    naive_execution_order [] = [] ∧ clever_execution_order [] = [] := by
  refine ⟨?_, ?_, rfl, rfl⟩
  · refine (naive_run_perm (NaiveScheduler.new tasks).count _ (le_refl _)).trans ?_
    rw [NaiveScheduler.new]
    simp only [List.append_nil]
    exact (sortDescQ_perm tasks).map Task.id
  · refine (clever_run_perm (CleverScheduler.new tasks).count _ (le_refl _)).trans ?_
    rw [CleverScheduler.new]
    simp only [List.append_nil]
    exact (sortDescQ_perm tasks).map Task.id

/-- Durations of the tasks carrying the given identifiers; used to state the
zero-arrival ordering property of the spec. -/
def durationsOfIds (ts : List Task) (ids : List Nat) : List Nat :=
  ids.map (fun i => ((ts.filter (fun t => t.id = i)).headD default).execution_duration)

/-- C4 (code bug): with all tasks sharing `queued_at = 0` the output need not
be in ascending order of `execution_duration`.  On
`[{id 2, q 0, dur 3}, {id 1, q 0, dur 5}]` both schedulers output `[1, 2]`
(durations `[5, 3]`): the first loop iteration performs no admission, so the
fast-forward branch dispatches the last-sorted task regardless of duration. -/
theorem c4_zero_arrival_not_sorted_by_duration :
    naive_execution_order [⟨2, 0, 3⟩, ⟨1, 0, 5⟩] = [1, 2] ∧
    clever_execution_order [⟨2, 0, 3⟩, ⟨1, 0, 5⟩] = [1, 2] ∧
    ¬ List.Pairwise (· ≤ ·) (durationsOfIds [⟨2, 0, 3⟩, ⟨1, 0, 5⟩]
        (naive_execution_order [⟨2, 0, 3⟩, ⟨1, 0, 5⟩])) ∧
    ¬ List.Pairwise (· ≤ ·) (durationsOfIds [⟨2, 0, 3⟩, ⟨1, 0, 5⟩]
        (clever_execution_order [⟨2, 0, 3⟩, ⟨1, 0, 5⟩])) := by
  refine ⟨by decide, by decide, by decide, by decide⟩

/-- C7 (confirmed): whenever `unfinished()` holds, `get_next_task` returns
`Some` for both schedulers, so the `.unwrap()` in the `execution_order` loop
(which calls `get_next_task` only under `unfinished()`) can never panic. -/
theorem c7_get_next_task_some_of_unfinished :
    (∀ s : NaiveScheduler, s.unfinished = true → s.get_next_task.isSome = true) ∧
    (∀ s : CleverScheduler, s.unfinished = true → s.get_next_task.isSome = true) :=
  ⟨fun _ h => naive_next_isSome h, fun _ h => clever_next_isSome h⟩

/-- Witness for C7 at a concrete state with one unqueued task. -/
theorem c7_get_next_task_some_of_unfinished_witness :
    (⟨0, [], [⟨1, 0, 1⟩]⟩ : NaiveScheduler).get_next_task.isSome = true ∧
    (⟨0, [⟨1, 0, 1⟩], []⟩ : CleverScheduler).get_next_task.isSome = true :=
  ⟨c7_get_next_task_some_of_unfinished.1 _ (by decide),
   c7_get_next_task_some_of_unfinished.2 _ (by decide)⟩

/-- C9 (confirmed): for every finite input of `n` tasks, `execution_order`
terminates after exactly `n` loop iterations: the dispatch log has length
`n`, and running the loop with any amount of extra fuel beyond `n` produces
the same result (the loop body is executed exactly `n` times, each iteration
removing exactly one task from the union of `unqueued_tasks` and the ready
structure). -/
theorem c9_terminates_in_input_length_iterations (tasks : List Task) :
    (naive_execution_order tasks).length = tasks.length ∧
    (∀ k, NaiveScheduler.run (tasks.length + k) (NaiveScheduler.new tasks) =
      naive_execution_order tasks) ∧
    (clever_execution_order tasks).length = tasks.length ∧
    (∀ k, CleverScheduler.run (tasks.length + k) (CleverScheduler.new tasks) =
      clever_execution_order tasks) := by
  have hnc : (NaiveScheduler.new tasks).count = tasks.length := by
    rw [NaiveScheduler.new, NaiveScheduler.count]
    simp [(sortDescQ_perm tasks).length_eq]
  have hcc : (CleverScheduler.new tasks).count = tasks.length := by
    rw [CleverScheduler.new, CleverScheduler.count]
    simp [(sortDescQ_perm tasks).length_eq]
  refine ⟨?_, ?_, ?_, ?_⟩
  · have := (naive_run_perm (NaiveScheduler.new tasks).count _ (le_refl _)).length_eq
    rw [NaiveScheduler.new] at this
    simpa [naive_execution_order, NaiveScheduler.execution_order, NaiveScheduler.new,
      (sortDescQ_perm tasks).length_eq] using this
  · intro k
    rw [naive_execution_order, NaiveScheduler.execution_order, hnc]
    exact naive_run_fuel_add tasks.length k _ hnc
  · have := (clever_run_perm (CleverScheduler.new tasks).count _ (le_refl _)).length_eq
    rw [CleverScheduler.new] at this
    simpa [clever_execution_order, CleverScheduler.execution_order, CleverScheduler.new,
      (sortDescQ_perm tasks).length_eq] using this
  · intro k
    rw [clever_execution_order, CleverScheduler.execution_order, hcc]
    exact clever_run_fuel_add tasks.length k _ hcc

/-! ### Loop-head invariants (arrival order and eligibility) -/

/-- Invariant of the naive scheduler at the head of the `execution_order`
loop: the unqueued tasks are in reverse-chronological order (as the `NOTE`
comments in the source assume) and none of them has arrived strictly before
the current clock value (all tasks due by the clock were already admitted by
the previous `update_queue`, and the clock starts at 0). -/
def NaiveScheduler.Inv (s : NaiveScheduler) : Prop :=
  sortedDescQ s.unqueued_tasks ∧ ∀ u ∈ s.unqueued_tasks, s.current_time ≤ u.queued_at

/-- Same invariant for the clever scheduler. -/
def CleverScheduler.Inv (s : CleverScheduler) : Prop :=
  sortedDescQ s.unqueued_tasks ∧ ∀ u ∈ s.unqueued_tasks, s.current_time ≤ u.queued_at

theorem naive_new_inv (tasks : List Task) : (NaiveScheduler.new tasks).Inv :=
  ⟨sortDescQ_sorted tasks, fun _ _ => Nat.zero_le _⟩

theorem clever_new_inv (tasks : List Task) : (CleverScheduler.new tasks).Inv :=
  ⟨sortDescQ_sorted tasks, fun _ _ => Nat.zero_le _⟩

theorem dropWhile_gt_of_sortedAsc {t : Nat} {l : List Task}
    (hsort : l.Pairwise (fun a b => a.queued_at ≤ b.queued_at)) :
    ∀ u ∈ l.dropWhile (fun u => u.queued_at ≤ t), t < u.queued_at := by
  induction l with
  | nil => intro u hu; simp [List.dropWhile] at hu
  | cons x xs ih =>
    rw [List.dropWhile_cons]
    by_cases hx : x.queued_at ≤ t
    · simp only [hx, decide_eq_true_eq, if_true, decide_True]
      exact ih (List.pairwise_cons.mp hsort).2
    · simp only [hx, decide_False, if_false]
      intro u hu
      rcases List.mem_cons.mp hu with hu | hu
      · subst hu; omega
      · have := (List.pairwise_cons.mp hsort).1 u hu
        omega

theorem dropWhile_lt_of_sortedDesc {t : Nat} {l : List Task} (hsort : sortedDescQ l) :
    ∀ u ∈ l.dropWhile (fun u => t ≤ u.queued_at), u.queued_at < t := by
  induction l with
  | nil => intro u hu; simp [List.dropWhile] at hu
  | cons x xs ih =>
    rw [List.dropWhile_cons]
    by_cases hx : t ≤ x.queued_at
    · simp only [hx, decide_eq_true_eq, if_true, decide_True]
      exact ih (List.pairwise_cons.mp hsort).2
    · simp only [hx, decide_False, if_false]
      intro u hu
      rcases List.mem_cons.mp hu with hu | hu
      · subst hu; omega
      · have := (List.pairwise_cons.mp hsort).1 u hu
        omega

theorem takeWhile_ge_time {t : Nat} {l : List Task} :
    ∀ u ∈ l.takeWhile (fun u => t ≤ u.queued_at), t ≤ u.queued_at := by
  intro u hu
  have := List.mem_takeWhile_imp hu
  simpa using this

/-- `update_queue` leaves `unqueued_tasks` equal to a prefix of its previous
value (the drop-from-the-end loop removes a suffix). -/
theorem naive_update_unqueued (s : NaiveScheduler) :
    s.unqueued_tasks = s.update_queue.unqueued_tasks ++
      (s.unqueued_tasks.reverse.takeWhile (fun u => u.queued_at ≤ s.current_time)).reverse := by
  rw [NaiveScheduler.update_queue, NaiveScheduler.get_new_tasks]
  simp only
  rw [← List.reverse_append, List.takeWhile_append_dropWhile, List.reverse_reverse]

theorem naive_update_inv (s : NaiveScheduler) (hsort : sortedDescQ s.unqueued_tasks) :
    s.update_queue.Inv := by
  constructor
  · have hpre := naive_update_unqueued s
    have : s.update_queue.unqueued_tasks.Sublist s.unqueued_tasks := by
      rw [hpre]
      exact List.sublist_append_left _ _
    exact List.Pairwise.sublist this hsort
  · intro u hu
    rw [naive_update_time]
    rw [NaiveScheduler.update_queue, NaiveScheduler.get_new_tasks] at hu
    simp only at hu
    rw [List.mem_reverse] at hu
    have hrevsort : s.unqueued_tasks.reverse.Pairwise
        (fun a b => a.queued_at ≤ b.queued_at) := by
      rw [List.pairwise_reverse]
      exact hsort
    exact le_of_lt (dropWhile_gt_of_sortedAsc hrevsort u hu)

theorem naive_next_sorted {s s' : NaiveScheduler} {x : Task}
    (hsort : sortedDescQ s.unqueued_tasks)
    (h : s.get_next_task = some (x, s')) : sortedDescQ s'.unqueued_tasks := by
  rw [NaiveScheduler.get_next_task] at h
  cases hq : get_shortest_task_ind s.current_queue with
  | some ind =>
    rw [hq] at h
    simp only [Option.some_inj, Prod.mk.injEq] at h
    obtain ⟨-, hs'⟩ := h
    rw [← hs']
    exact hsort
  | none =>
    rw [hq] at h
    cases hp : popLast s.unqueued_tasks with
    | some p =>
      obtain ⟨task, rest⟩ := p
      rw [hp] at h
      simp only [Option.some_inj, Prod.mk.injEq] at h
      obtain ⟨-, hs'⟩ := h
      rw [← hs']
      have hunq : s.unqueued_tasks = rest ++ [task] := popLast_eq_append hp
      rw [hunq] at hsort
      exact List.Pairwise.sublist (List.sublist_append_left _ _) hsort
    | none => rw [hp] at h; simp at h

/-- One full loop iteration (selection followed by admission) preserves the
naive invariant. -/
theorem naive_step_inv {s s' : NaiveScheduler} {x : Task}
    (hinv : s.Inv) (h : s.get_next_task = some (x, s')) : s'.update_queue.Inv :=
  naive_update_inv s' (naive_next_sorted hinv.1 h)

theorem take_takeWhile_len (p : Task → Bool) (l : List Task) :
    l.take (l.takeWhile p).length = l.takeWhile p := by
  induction l with
  | nil => rfl
  | cons x xs ih =>
    rw [List.takeWhile_cons]
    by_cases hx : p x
    · simp [hx, ih]
    · simp [hx]

theorem drop_takeWhile_len (p : Task → Bool) (l : List Task) :
    l.drop (l.takeWhile p).length = l.dropWhile p := by
  induction l with
  | nil => rfl
  | cons x xs ih =>
    rw [List.takeWhile_cons, List.dropWhile_cons]
    by_cases hx : p x
    · simp [hx, ih]
    · simp [hx]

theorem cpush_spec : ∀ (n : Nat) (s : CleverScheduler), n ≤ s.unqueued_tasks.length →
    (CleverScheduler.push_new_tasks n s).unqueued_tasks =
      s.unqueued_tasks.take (s.unqueued_tasks.length - n) ∧
    List.Perm (CleverScheduler.push_new_tasks n s).current_queue
      (s.current_queue ++ s.unqueued_tasks.drop (s.unqueued_tasks.length - n)) := by
  intro n
  induction n with
  | zero =>
    intro s _
    rw [CleverScheduler.push_new_tasks]
    constructor
    · rw [Nat.sub_zero, List.take_length]
    · rw [Nat.sub_zero, List.drop_length, List.append_nil]
  | succ m ih =>
    intro s hn
    cases hp : popLast s.unqueued_tasks with
    | none =>
      have := popLast_eq_none.mp hp
      rw [this] at hn
      simp at hn
    | some p =>
      obtain ⟨task, rest⟩ := p
      have hunq : s.unqueued_tasks = rest ++ [task] := popLast_eq_append hp
      have hlen : s.unqueued_tasks.length = rest.length + 1 := by
        rw [hunq]; simp
      have hm : m ≤ rest.length := by omega
      have hidx : s.unqueued_tasks.length - (m + 1) = rest.length - m := by omega
      have hle : rest.length - m ≤ rest.length := Nat.sub_le _ _
      simp only [CleverScheduler.push_new_tasks, hp]
      obtain ⟨ih1, ih2⟩ :=
        ih ⟨s.current_time, rest, heapPush s.current_queue task⟩ (by simpa using hm)
      constructor
      · rw [ih1]
        simp only
        rw [hidx, hunq, List.take_append_of_le_length hle]
      · refine ih2.trans ?_
        simp only
        rw [hidx, hunq, List.drop_append_of_le_length hle]
        refine (List.Perm.append_right _ (heapPush_perm s.current_queue task)).trans ?_
        exact (List.perm_middle.symm).trans
          (List.Perm.append_left _ (List.perm_append_singleton task _).symm)

theorem clever_update_unqueued (s : CleverScheduler) :
    s.update_queue.unqueued_tasks =
      s.unqueued_tasks.takeWhile (fun u => s.current_time ≤ u.queued_at) := by
  rw [CleverScheduler.update_queue, CleverScheduler.queue_tasks_submitted_before]
  have hlen : (s.unqueued_tasks.takeWhile
      (fun u => s.current_time ≤ u.queued_at)).length ≤ s.unqueued_tasks.length :=
    List.Sublist.length_le (List.takeWhile_sublist _)
  have h := (cpush_spec
    (s.unqueued_tasks.length - (s.unqueued_tasks.takeWhile
      (fun u => s.current_time ≤ u.queued_at)).length) s (Nat.sub_le _ _)).1
  rw [h]
  rw [Nat.sub_sub_self hlen]
  exact take_takeWhile_len _ _

theorem clever_update_heap_perm (s : CleverScheduler) :
    List.Perm s.update_queue.current_queue
      (s.current_queue ++ s.unqueued_tasks.dropWhile (fun u => s.current_time ≤ u.queued_at)) := by
  rw [CleverScheduler.update_queue, CleverScheduler.queue_tasks_submitted_before]
  have hlen : (s.unqueued_tasks.takeWhile
      (fun u => s.current_time ≤ u.queued_at)).length ≤ s.unqueued_tasks.length :=
    List.Sublist.length_le (List.takeWhile_sublist _)
  have h := (cpush_spec
    (s.unqueued_tasks.length - (s.unqueued_tasks.takeWhile
      (fun u => s.current_time ≤ u.queued_at)).length) s (Nat.sub_le _ _)).2
  refine h.trans ?_
  rw [Nat.sub_sub_self hlen, drop_takeWhile_len]

theorem clever_update_inv (s : CleverScheduler) (hsort : sortedDescQ s.unqueued_tasks) :
    s.update_queue.Inv := by
  constructor
  · rw [clever_update_unqueued]
    exact List.Pairwise.sublist (List.takeWhile_sublist _) hsort
  · intro u hu
    rw [clever_update_time]
    rw [clever_update_unqueued] at hu
    exact takeWhile_ge_time u hu

theorem clever_next_sorted {s s' : CleverScheduler} {x : Task}
    (hsort : sortedDescQ s.unqueued_tasks)
    (h : s.get_next_task = some (x, s')) : sortedDescQ s'.unqueued_tasks := by
  rw [CleverScheduler.get_next_task] at h
  cases hq : heapPop s.current_queue with
  | some p =>
    obtain ⟨task, rest⟩ := p
    rw [hq] at h
    simp only [Option.some_inj, Prod.mk.injEq] at h
    obtain ⟨-, hs'⟩ := h
    rw [← hs']
    exact hsort
  | none =>
    rw [hq] at h
    cases hp : popLast s.unqueued_tasks with
    | some p =>
      obtain ⟨task, rest⟩ := p
      rw [hp] at h
      simp only [Option.some_inj, Prod.mk.injEq] at h
      obtain ⟨-, hs'⟩ := h
      rw [← hs']
      have hunq : s.unqueued_tasks = rest ++ [task] := popLast_eq_append hp
      rw [hunq] at hsort
      exact List.Pairwise.sublist (List.sublist_append_left _ _) hsort
    | none => rw [hp] at h; simp at h

/-- One full loop iteration preserves the clever invariant. -/
theorem clever_step_inv {s s' : CleverScheduler} {x : Task}
    (hinv : s.Inv) (h : s.get_next_task = some (x, s')) : s'.update_queue.Inv :=
  clever_update_inv s' (clever_next_sorted hinv.1 h)

/-- C5 (confirmed): the invariant `Inv` (unqueued tasks reverse-chronological
and none due before the clock) holds initially and is preserved by every loop
iteration of both schedulers; whenever the idle fast-forward path is taken
(ready structure empty, arrival list non-empty, popping task `x`), the popped
task satisfies `current_time ≤ x.queued_at`, so the clock assignment
`queued_at + execution_duration` of the code equals the spec's
`max(Clock, queued_at) + execution_duration`. -/
theorem c5_fast_forward_clock_formula :
    (∀ tasks : List Task, (NaiveScheduler.new tasks).Inv ∧ (CleverScheduler.new tasks).Inv) ∧
    (∀ (s s' : NaiveScheduler) (x : Task), s.Inv → s.get_next_task = some (x, s') →
      s'.update_queue.Inv) ∧
    (∀ (s s' : CleverScheduler) (x : Task), s.Inv → s.get_next_task = some (x, s') →
      s'.update_queue.Inv) ∧
    (∀ (s : NaiveScheduler) (x : Task) (rest : List Task), s.Inv → s.current_queue = [] →
      popLast s.unqueued_tasks = some (x, rest) →
      s.current_time ≤ x.queued_at ∧
      (max s.current_time x.queued_at + x.execution_duration) % u32Mod =
        (x.queued_at + x.execution_duration) % u32Mod ∧
      s.get_next_task = some (x,
        { s with
          unqueued_tasks := rest
          current_time :=
            (max s.current_time x.queued_at + x.execution_duration) % u32Mod })) ∧
    (∀ (s : CleverScheduler) (x : Task) (rest : List Task), s.Inv → s.current_queue = [] →
      popLast s.unqueued_tasks = some (x, rest) →
      s.current_time ≤ x.queued_at ∧
      (max s.current_time x.queued_at + x.execution_duration) % u32Mod =
        (x.queued_at + x.execution_duration) % u32Mod ∧
      s.get_next_task = some (x,
        { s with
          unqueued_tasks := rest
          current_time :=
            (max s.current_time x.queued_at + x.execution_duration) % u32Mod })) := by
  refine ⟨fun tasks => ⟨naive_new_inv tasks, clever_new_inv tasks⟩,
    fun s s' x hinv h => naive_step_inv hinv h,
    fun s s' x hinv h => clever_step_inv hinv h, ?_, ?_⟩
  · intro s x rest hinv hq hp
    have hx : x ∈ s.unqueued_tasks := by
      rw [popLast_eq_append hp]
      exact List.mem_append_right rest (List.mem_singleton.mpr rfl)
    have ht : s.current_time ≤ x.queued_at := hinv.2 x hx
    refine ⟨ht, by rw [Nat.max_eq_right ht], ?_⟩
    rw [NaiveScheduler.get_next_task, hq]
    simp only [get_shortest_task_ind, hp, Nat.max_eq_right ht]
  · intro s x rest hinv hq hp
    have hx : x ∈ s.unqueued_tasks := by
      rw [popLast_eq_append hp]
      exact List.mem_append_right rest (List.mem_singleton.mpr rfl)
    have ht : s.current_time ≤ x.queued_at := hinv.2 x hx
    refine ⟨ht, by rw [Nat.max_eq_right ht], ?_⟩
    rw [CleverScheduler.get_next_task, hq]
    simp only [heapPop, popLast, hp, Nat.max_eq_right ht]

/-- Witness for C5: at the state with clock 0 and one unqueued task
`{id 1, queued_at 5, dur 3}`, the fast-forward path dispatches it and sets
the clock to `max(0, 5) + 3 = 8`. -/
theorem c5_fast_forward_clock_formula_witness :
    (⟨0, [], [⟨1, 5, 3⟩]⟩ : NaiveScheduler).current_time ≤ (⟨1, 5, 3⟩ : Task).queued_at ∧
    (⟨0, [], [⟨1, 5, 3⟩]⟩ : NaiveScheduler).get_next_task = some (⟨1, 5, 3⟩, ⟨8, [], []⟩) ∧
    (⟨0, [⟨1, 5, 3⟩], []⟩ : CleverScheduler).current_time ≤ (⟨1, 5, 3⟩ : Task).queued_at ∧
    (⟨0, [⟨1, 5, 3⟩], []⟩ : CleverScheduler).get_next_task = some (⟨1, 5, 3⟩, ⟨8, [], []⟩) := by
  have hninv : (⟨0, [], [⟨1, 5, 3⟩]⟩ : NaiveScheduler).Inv := by
    constructor
    · simp [sortedDescQ]
    · intro u hu
      simp only [List.mem_singleton] at hu
      subst hu
      exact Nat.zero_le _
  have hcinv : (⟨0, [⟨1, 5, 3⟩], []⟩ : CleverScheduler).Inv := by
    constructor
    · simp [sortedDescQ]
    · intro u hu
      simp only [List.mem_singleton] at hu
      subst hu
      exact Nat.zero_le _
  have hn := c5_fast_forward_clock_formula.2.2.2.1
    (⟨0, [], [⟨1, 5, 3⟩]⟩ : NaiveScheduler) ⟨1, 5, 3⟩ [] hninv rfl rfl
  have hc := c5_fast_forward_clock_formula.2.2.2.2
    (⟨0, [⟨1, 5, 3⟩], []⟩ : CleverScheduler) ⟨1, 5, 3⟩ [] hcinv rfl rfl
  exact ⟨hn.1, by rw [hn.2.2]; rfl, hc.1, by rw [hc.2.2]; rfl⟩

/-- C6 (confirmed): on every non-empty ready queue, `get_shortest_task_ind`
returns the index of the first task attaining the minimal
`execution_duration`: the returned index is in range, its duration is a
minimum of the whole queue, and every strictly earlier index has a strictly
larger duration.  Being a pure function of the queue, this tie-break is the
same at every iteration of the naive strategy's run. -/
theorem c6_first_minimal_index (l : List Task) (hl : l ≠ []) :
    ∃ ind, get_shortest_task_ind l = some ind ∧ ind < l.length ∧
      (∀ j, j < l.length →
        (l.getD ind default).execution_duration ≤ (l.getD j default).execution_duration) ∧
      (∀ j, j < ind →
        (l.getD ind default).execution_duration < (l.getD j default).execution_duration) :=
  get_shortest_spec l hl

/-- Witness for C6 on a queue with a duplicated minimal duration: the first
of the two duration-3 tasks (index 1) is selected. -/
theorem c6_first_minimal_index_witness :
    ([⟨1, 0, 5⟩, ⟨2, 0, 3⟩, ⟨3, 0, 3⟩] : List Task) ≠ [] ∧
    (∃ ind, get_shortest_task_ind [⟨1, 0, 5⟩, ⟨2, 0, 3⟩, ⟨3, 0, 3⟩] = some ind ∧
      ind < ([⟨1, 0, 5⟩, ⟨2, 0, 3⟩, ⟨3, 0, 3⟩] : List Task).length ∧
      (∀ j, j < ([⟨1, 0, 5⟩, ⟨2, 0, 3⟩, ⟨3, 0, 3⟩] : List Task).length →
        (([⟨1, 0, 5⟩, ⟨2, 0, 3⟩, ⟨3, 0, 3⟩] : List Task).getD ind default).execution_duration ≤
          (([⟨1, 0, 5⟩, ⟨2, 0, 3⟩, ⟨3, 0, 3⟩] : List Task).getD j default).execution_duration) ∧
      (∀ j, j < ind →
        (([⟨1, 0, 5⟩, ⟨2, 0, 3⟩, ⟨3, 0, 3⟩] : List Task).getD ind default).execution_duration <
          (([⟨1, 0, 5⟩, ⟨2, 0, 3⟩, ⟨3, 0, 3⟩] : List Task).getD j default).execution_duration)) :=
  ⟨by decide, c6_first_minimal_index _ (by decide)⟩

/-! ### Bounded invariants: no u32 overflow -/

/-- Total service demand of a list of tasks. -/
def sumD (l : List Task) : Nat := (l.map Task.execution_duration).sum

theorem sumD_nil : sumD [] = 0 := rfl

theorem sumD_append (l₁ l₂ : List Task) : sumD (l₁ ++ l₂) = sumD l₁ + sumD l₂ := by
  rw [sumD, sumD, sumD, List.map_append, List.sum_append]

theorem sumD_cons (x : Task) (l : List Task) :
    sumD (x :: l) = x.execution_duration + sumD l := by
  rw [sumD, sumD, List.map_cons, List.sum_cons]

theorem sumD_perm {l₁ l₂ : List Task} (h : List.Perm l₁ l₂) : sumD l₁ = sumD l₂ :=
  (h.map Task.execution_duration).sum_eq

theorem mem_sumD_le {x : Task} {l : List Task} (h : x ∈ l) :
    x.execution_duration ≤ sumD l :=
  List.single_le_sum (fun y _ => Nat.zero_le y) _ (List.mem_map_of_mem Task.execution_duration h)

theorem takeWhile_le_time {t : Nat} {l : List Task} :
    ∀ u ∈ l.takeWhile (fun u => u.queued_at ≤ t), u.queued_at ≤ t := by
  intro u hu
  have := List.mem_takeWhile_imp hu
  simpa using this

theorem naive_update_queue_eq (s : NaiveScheduler) :
    s.update_queue.current_queue = s.current_queue ++
      s.unqueued_tasks.reverse.takeWhile (fun u => u.queued_at ≤ s.current_time) := rfl

/-- No-overflow invariant of the naive scheduler: besides `Inv`, every queued
task has arrived, and the clock plus the remaining service demand (as well as
each unqueued task's arrival time plus the remaining demand) stays below the
bound `B`. -/
def NaiveScheduler.Bounded (B : Nat) (s : NaiveScheduler) : Prop :=
  s.Inv ∧
  (∀ x ∈ s.current_queue, x.queued_at ≤ s.current_time) ∧
  s.current_time + sumD s.unqueued_tasks + sumD s.current_queue ≤ B ∧
  (∀ u ∈ s.unqueued_tasks,
    u.queued_at + sumD s.unqueued_tasks + sumD s.current_queue ≤ B)

/-- No-overflow invariant of the clever scheduler. -/
def CleverScheduler.Bounded (B : Nat) (s : CleverScheduler) : Prop :=
  s.Inv ∧
  (∀ x ∈ s.current_queue, x.queued_at ≤ s.current_time) ∧
  s.current_time + sumD s.unqueued_tasks + sumD s.current_queue ≤ B ∧
  (∀ u ∈ s.unqueued_tasks,
    u.queued_at + sumD s.unqueued_tasks + sumD s.current_queue ≤ B)

theorem naive_new_bounded (B : Nat) (tasks : List Task)
    (h : ∀ u ∈ tasks, u.queued_at + sumD tasks ≤ B) :
    (NaiveScheduler.new tasks).Bounded B := by
  have hsum : sumD (sortDescQ tasks) = sumD tasks := sumD_perm (sortDescQ_perm tasks)
  refine ⟨naive_new_inv tasks, ?_, ?_, ?_⟩
  · intro x hx
    simp [NaiveScheduler.new] at hx
  · show 0 + sumD (sortDescQ tasks) + sumD [] ≤ B
    rw [hsum]
    cases tasks with
    | nil => simp [sumD]
    | cons u ts =>
      have := h u (List.mem_cons_self u ts)
      rw [sumD_cons] at this
      rw [sumD_cons, sumD_nil]
      omega
  · intro u hu
    show u.queued_at + sumD (sortDescQ tasks) + sumD [] ≤ B
    rw [hsum]
    have hmem : u ∈ tasks := (sortDescQ_perm tasks).mem_iff.mp hu
    have := h u hmem
    rw [sumD_nil]
    omega

theorem clever_new_bounded (B : Nat) (tasks : List Task)
    (h : ∀ u ∈ tasks, u.queued_at + sumD tasks ≤ B) :
    (CleverScheduler.new tasks).Bounded B := by
  have hsum : sumD (sortDescQ tasks) = sumD tasks := sumD_perm (sortDescQ_perm tasks)
  refine ⟨clever_new_inv tasks, ?_, ?_, ?_⟩
  · intro x hx
    simp [CleverScheduler.new] at hx
  · show 0 + sumD (sortDescQ tasks) + sumD [] ≤ B
    rw [hsum]
    cases tasks with
    | nil => simp [sumD]
    | cons u ts =>
      have := h u (List.mem_cons_self u ts)
      rw [sumD_cons] at this
      rw [sumD_cons, sumD_nil]
      omega
  · intro u hu
    show u.queued_at + sumD (sortDescQ tasks) + sumD [] ≤ B
    rw [hsum]
    have hmem : u ∈ tasks := (sortDescQ_perm tasks).mem_iff.mp hu
    have := h u hmem
    rw [sumD_nil]
    omega

theorem naive_step_bounded {B : Nat} (hB : B < u32Mod) {s s' : NaiveScheduler} {x : Task}
    (hb : s.Bounded B) (h : s.get_next_task = some (x, s')) :
    s.current_time ≤ s'.current_time ∧ x.queued_at ≤ s'.current_time ∧
    s'.update_queue.Bounded B := by
  obtain ⟨hinv, hque, htot, hunq⟩ := hb
  rw [NaiveScheduler.get_next_task] at h
  cases hq : get_shortest_task_ind s.current_queue with
  | some ind =>
    rw [hq] at h
    simp only [Option.some_inj, Prod.mk.injEq] at h
    obtain ⟨hx, hs'⟩ := h
    have hbound : ind < s.current_queue.length := get_shortest_bound hq
    subst hx
    subst hs'
    have hxmem : s.current_queue.getD ind default ∈ s.current_queue := getD_mem hbound
    have hqperm : List.Perm
        (s.current_queue.getD ind default :: s.current_queue.eraseIdx ind)
        s.current_queue := getD_cons_eraseIdx_perm _ ind hbound
    have hdle : (s.current_queue.getD ind default).execution_duration ≤
        sumD s.current_queue := mem_sumD_le hxmem
    have hnw : s.current_time + (s.current_queue.getD ind default).execution_duration <
        u32Mod := by
      refine lt_of_le_of_lt ?_ hB
      omega
    have hmod : (s.current_time + (s.current_queue.getD ind default).execution_duration) %
        u32Mod =
        s.current_time + (s.current_queue.getD ind default).execution_duration :=
      Nat.mod_eq_of_lt hnw
    set s' : NaiveScheduler :=
      { s with
        current_queue := s.current_queue.eraseIdx ind
        current_time :=
          (s.current_time + (s.current_queue.getD ind default).execution_duration) %
            u32Mod }
      with hs'def
    have htime' : s'.current_time =
        s.current_time + (s.current_queue.getD ind default).execution_duration := hmod
    have hs'q : s'.current_queue = s.current_queue.eraseIdx ind := rfl
    have hs'u : s'.unqueued_tasks = s.unqueued_tasks := rfl
    have hqsum : (s.current_queue.getD ind default).execution_duration +
        sumD (s.current_queue.eraseIdx ind) = sumD s.current_queue := by
      rw [← sumD_cons]
      exact sumD_perm hqperm
    have htotal' : sumD s'.update_queue.unqueued_tasks +
        sumD s'.update_queue.current_queue =
        sumD s'.unqueued_tasks + sumD s'.current_queue := by
      have := sumD_perm (naive_update_perm s')
      rw [sumD_append, sumD_append] at this
      exact this
    refine ⟨by rw [htime']; omega, ?_, ?_⟩
    · rw [htime']
      have := hque _ hxmem
      omega
    · refine ⟨naive_update_inv s' hinv.1, ?_, ?_, ?_⟩
      · intro y hy
        rw [naive_update_queue_eq] at hy
        rw [naive_update_time]
        rcases List.mem_append.mp hy with hy | hy
        · rw [hs'q] at hy
          have hymem : y ∈ s.current_queue :=
            List.Sublist.mem hy (List.eraseIdx_sublist s.current_queue ind)
          have := hque y hymem
          rw [htime']
          omega
        · exact takeWhile_le_time y hy
      · rw [naive_update_time, htime']
        have hsu : sumD s'.unqueued_tasks = sumD s.unqueued_tasks := rfl
        have hsq : sumD s'.current_queue = sumD (s.current_queue.eraseIdx ind) := rfl
        omega
      · intro u hu
        have humem : u ∈ s'.unqueued_tasks := by
          rw [naive_update_unqueued s']
          exact List.mem_append_left _ hu
        have humem2 : u ∈ s.unqueued_tasks := by rw [← hs'u]; exact humem
        have := hunq u humem2
        have hsu : sumD s'.unqueued_tasks = sumD s.unqueued_tasks := rfl
        have hsq : sumD s'.current_queue = sumD (s.current_queue.eraseIdx ind) := rfl
        omega
  | none =>
    rw [hq] at h
    have hqe : s.current_queue = [] := get_shortest_eq_none.mp hq
    cases hp : popLast s.unqueued_tasks with
    | some p =>
      obtain ⟨task, rest⟩ := p
      rw [hp] at h
      simp only [Option.some_inj, Prod.mk.injEq] at h
      obtain ⟨hx, hs'⟩ := h
      subst hx
      subst hs'
      have hunq_eq : s.unqueued_tasks = rest ++ [task] := popLast_eq_append hp
      have hxmem : task ∈ s.unqueued_tasks := by
        rw [hunq_eq]
        exact List.mem_append_right rest (List.mem_singleton.mpr rfl)
      have hdle : task.execution_duration ≤ sumD s.unqueued_tasks := mem_sumD_le hxmem
      have hxb := hunq task hxmem
      have hnw : task.queued_at + task.execution_duration < u32Mod := by
        refine lt_of_le_of_lt ?_ hB
        omega
      have hmod : (task.queued_at + task.execution_duration) % u32Mod =
          task.queued_at + task.execution_duration := Nat.mod_eq_of_lt hnw
      have hxt := hinv.2 task hxmem
      set s' : NaiveScheduler :=
        { s with
          unqueued_tasks := rest
          current_time := (task.queued_at + task.execution_duration) % u32Mod }
        with hs'def
      have htime' : s'.current_time = task.queued_at + task.execution_duration := hmod
      have hs'q : s'.current_queue = s.current_queue := rfl
      have hs'u : s'.unqueued_tasks = rest := rfl
      have hsplit : sumD s.unqueued_tasks = sumD rest + task.execution_duration := by
        rw [hunq_eq, sumD_append, sumD_cons, sumD_nil]
        omega
      have hsqe : sumD s.current_queue = 0 := by rw [hqe, sumD_nil]
      have hsorted' : sortedDescQ s'.unqueued_tasks := by
        have := hinv.1
        rw [hunq_eq] at this
        rw [hs'u]
        exact List.Pairwise.sublist (List.sublist_append_left _ _) this
      have htotal' : sumD s'.update_queue.unqueued_tasks +
          sumD s'.update_queue.current_queue =
          sumD s'.unqueued_tasks + sumD s'.current_queue := by
        have := sumD_perm (naive_update_perm s')
        rw [sumD_append, sumD_append] at this
        exact this
      refine ⟨by rw [htime']; omega, by rw [htime']; omega, ?_⟩
      refine ⟨naive_update_inv s' hsorted', ?_, ?_, ?_⟩
      · intro y hy
        rw [naive_update_queue_eq] at hy
        rw [naive_update_time]
        rcases List.mem_append.mp hy with hy | hy
        · rw [hs'q, hqe] at hy
          simp at hy
        · exact takeWhile_le_time y hy
      · rw [naive_update_time, htime']
        have hsu : sumD s'.unqueued_tasks = sumD rest := rfl
        have hsq : sumD s'.current_queue = sumD s.current_queue := rfl
        omega
      · intro u hu
        have humem : u ∈ s'.unqueued_tasks := by
          rw [naive_update_unqueued s']
          exact List.mem_append_left _ hu
        have humem2 : u ∈ s.unqueued_tasks := by
          rw [hs'u] at humem
          rw [hunq_eq]
          exact List.mem_append_left _ humem
        have := hunq u humem2
        have hsu : sumD s'.unqueued_tasks = sumD rest := rfl
        have hsq : sumD s'.current_queue = sumD s.current_queue := rfl
        omega
    | none => rw [hp] at h; simp at h

theorem clever_step_bounded {B : Nat} (hB : B < u32Mod) {s s' : CleverScheduler} {x : Task}
    (hb : s.Bounded B) (h : s.get_next_task = some (x, s')) :
    s.current_time ≤ s'.current_time ∧ x.queued_at ≤ s'.current_time ∧
    s'.update_queue.Bounded B := by
  obtain ⟨hinv, hque, htot, hunq⟩ := hb
  rw [CleverScheduler.get_next_task] at h
  cases hq : heapPop s.current_queue with
  | some p =>
    obtain ⟨task, restHeap⟩ := p
    rw [hq] at h
    simp only [Option.some_inj, Prod.mk.injEq] at h
    obtain ⟨hx, hs'⟩ := h
    subst hx
    subst hs'
    have hqperm : List.Perm (task :: restHeap) s.current_queue := heapPop_perm hq
    have hxmem : task ∈ s.current_queue :=
      hqperm.mem_iff.mp (List.mem_cons_self task restHeap)
    have hdle : task.execution_duration ≤ sumD s.current_queue := mem_sumD_le hxmem
    have hnw : s.current_time + task.execution_duration < u32Mod := by
      refine lt_of_le_of_lt ?_ hB
      omega
    have hmod : (s.current_time + task.execution_duration) % u32Mod =
        s.current_time + task.execution_duration := Nat.mod_eq_of_lt hnw
    set s' : CleverScheduler :=
      { s with
        current_queue := restHeap
        current_time := (s.current_time + task.execution_duration) % u32Mod }
      with hs'def
    have htime' : s'.current_time = s.current_time + task.execution_duration := hmod
    have hs'q : s'.current_queue = restHeap := rfl
    have hs'u : s'.unqueued_tasks = s.unqueued_tasks := rfl
    have hqsum : task.execution_duration + sumD restHeap = sumD s.current_queue := by
      rw [← sumD_cons]
      exact sumD_perm hqperm
    have htotal' : sumD s'.update_queue.unqueued_tasks +
        sumD s'.update_queue.current_queue =
        sumD s'.unqueued_tasks + sumD s'.current_queue := by
      have := sumD_perm (clever_update_perm s')
      rw [sumD_append, sumD_append] at this
      exact this
    refine ⟨by rw [htime']; omega, ?_, ?_⟩
    · rw [htime']
      have := hque _ hxmem
      omega
    · refine ⟨clever_update_inv s' hinv.1, ?_, ?_, ?_⟩
      · intro y hy
        rw [clever_update_time]
        have hy2 := (clever_update_heap_perm s').mem_iff.mp hy
        rcases List.mem_append.mp hy2 with hy2 | hy2
        · rw [hs'q] at hy2
          have hymem : y ∈ s.current_queue :=
            hqperm.mem_iff.mp (List.mem_cons_of_mem task hy2)
          have := hque y hymem
          rw [htime']
          omega
        · have := dropWhile_lt_of_sortedDesc (hs'u ▸ hinv.1) y hy2
          omega
      · rw [clever_update_time, htime']
        have hsu : sumD s'.unqueued_tasks = sumD s.unqueued_tasks := rfl
        have hsq : sumD s'.current_queue = sumD restHeap := rfl
        omega
      · intro u hu
        have humem : u ∈ s'.unqueued_tasks := by
          rw [clever_update_unqueued s'] at hu
          exact List.Sublist.mem hu (List.takeWhile_sublist _)
        have humem2 : u ∈ s.unqueued_tasks := by rw [← hs'u]; exact humem
        have := hunq u humem2
        have hsu : sumD s'.unqueued_tasks = sumD s.unqueued_tasks := rfl
        have hsq : sumD s'.current_queue = sumD restHeap := rfl
        omega
  | none =>
    rw [hq] at h
    have hqe : s.current_queue = [] := heapPop_eq_none.mp hq
    cases hp : popLast s.unqueued_tasks with
    | some p =>
      obtain ⟨task, rest⟩ := p
      rw [hp] at h
      simp only [Option.some_inj, Prod.mk.injEq] at h
      obtain ⟨hx, hs'⟩ := h
      subst hx
      subst hs'
      have hunq_eq : s.unqueued_tasks = rest ++ [task] := popLast_eq_append hp
      have hxmem : task ∈ s.unqueued_tasks := by
        rw [hunq_eq]
        exact List.mem_append_right rest (List.mem_singleton.mpr rfl)
      have hdle : task.execution_duration ≤ sumD s.unqueued_tasks := mem_sumD_le hxmem
      have hxb := hunq task hxmem
      have hnw : task.queued_at + task.execution_duration < u32Mod := by
        refine lt_of_le_of_lt ?_ hB
        omega
      have hmod : (task.queued_at + task.execution_duration) % u32Mod =
          task.queued_at + task.execution_duration := Nat.mod_eq_of_lt hnw
      have hxt := hinv.2 task hxmem
      set s' : CleverScheduler :=
        { s with
          unqueued_tasks := rest
          current_time := (task.queued_at + task.execution_duration) % u32Mod }
        with hs'def
      have htime' : s'.current_time = task.queued_at + task.execution_duration := hmod
      have hs'q : s'.current_queue = s.current_queue := rfl
      have hs'u : s'.unqueued_tasks = rest := rfl
      have hsplit : sumD s.unqueued_tasks = sumD rest + task.execution_duration := by
        rw [hunq_eq, sumD_append, sumD_cons, sumD_nil]
        omega
      have hsqe : sumD s.current_queue = 0 := by rw [hqe, sumD_nil]
      have hsorted' : sortedDescQ s'.unqueued_tasks := by
        have := hinv.1
        rw [hunq_eq] at this
        rw [hs'u]
        exact List.Pairwise.sublist (List.sublist_append_left _ _) this
      have htotal' : sumD s'.update_queue.unqueued_tasks +
          sumD s'.update_queue.current_queue =
          sumD s'.unqueued_tasks + sumD s'.current_queue := by
        have := sumD_perm (clever_update_perm s')
        rw [sumD_append, sumD_append] at this
        exact this
      refine ⟨by rw [htime']; omega, by rw [htime']; omega, ?_⟩
      refine ⟨clever_update_inv s' hsorted', ?_, ?_, ?_⟩
      · intro y hy
        rw [clever_update_time]
        have hy2 := (clever_update_heap_perm s').mem_iff.mp hy
        rcases List.mem_append.mp hy2 with hy2 | hy2
        · rw [hs'q, hqe] at hy2
          simp at hy2
        · have := dropWhile_lt_of_sortedDesc hsorted' y hy2
          omega
      · rw [clever_update_time, htime']
        have hsu : sumD s'.unqueued_tasks = sumD rest := rfl
        have hsq : sumD s'.current_queue = sumD s.current_queue := rfl
        omega
      · intro u hu
        have humem : u ∈ s'.unqueued_tasks := by
          rw [clever_update_unqueued s'] at hu
          exact List.Sublist.mem hu (List.takeWhile_sublist _)
        have humem2 : u ∈ s.unqueued_tasks := by
          rw [hs'u] at humem
          rw [hunq_eq]
          exact List.mem_append_left _ humem
        have := hunq u humem2
        have hsu : sumD s'.unqueued_tasks = sumD rest := rfl
        have hsq : sumD s'.current_queue = sumD s.current_queue := rfl
        omega
    | none => rw [hp] at h; simp at h

/-- C8 counterexample: the clock is NOT monotonically non-decreasing in
general.  On `[{id 1, q 0, dur 4294967295}, {id 2, q 1, dur 10}]` the naive
scheduler's clock reaches `4294967295` after the first dispatch and the
second dispatch assigns `(4294967295 + 10) % 2^32 = 9`, a smaller value. -/
theorem c8_clock_wraps_and_decreases :
    (NaiveScheduler.new [⟨1, 0, 4294967295⟩, ⟨2, 1, 10⟩]).current_time = 0 ∧
    (NaiveScheduler.new [⟨1, 0, 4294967295⟩, ⟨2, 1, 10⟩]).get_next_task =
      some (⟨1, 0, 4294967295⟩, ⟨4294967295, [], [⟨2, 1, 10⟩]⟩) ∧
    (⟨4294967295, [], [⟨2, 1, 10⟩]⟩ : NaiveScheduler).update_queue =
      ⟨4294967295, [⟨2, 1, 10⟩], []⟩ ∧
    (⟨4294967295, [⟨2, 1, 10⟩], []⟩ : NaiveScheduler).get_next_task =
      some (⟨2, 1, 10⟩, ⟨9, [], []⟩) ∧
    (9 : Nat) < 4294967295 := by
  refine ⟨rfl, by decide, by decide, by decide, by decide⟩

/-- C8 (amended): provided no u32 overflow can occur — every task's
`queued_at` plus the total service demand stays below `2^32` (bound `B`) —
the clock starts at 0, the `Bounded` invariant holds initially and is
preserved by every loop iteration of both schedulers, and each iteration
neither decreases the clock nor dispatches a task at a clock value below its
`queued_at`. -/
theorem c8_clock_monotone_without_overflow :
    (∀ tasks : List Task, (NaiveScheduler.new tasks).current_time = 0 ∧
      (CleverScheduler.new tasks).current_time = 0) ∧
    (∀ (B : Nat) (tasks : List Task), (∀ u ∈ tasks, u.queued_at + sumD tasks ≤ B) →
      (NaiveScheduler.new tasks).Bounded B ∧ (CleverScheduler.new tasks).Bounded B) ∧
    (∀ (B : Nat), B < u32Mod → ∀ (s s' : NaiveScheduler) (x : Task), s.Bounded B →
      s.get_next_task = some (x, s') →
      s.current_time ≤ s'.current_time ∧ x.queued_at ≤ s'.current_time ∧
      s'.update_queue.current_time = s'.current_time ∧ s'.update_queue.Bounded B) ∧
    (∀ (B : Nat), B < u32Mod → ∀ (s s' : CleverScheduler) (x : Task), s.Bounded B →
      s.get_next_task = some (x, s') →
      s.current_time ≤ s'.current_time ∧ x.queued_at ≤ s'.current_time ∧
      s'.update_queue.current_time = s'.current_time ∧ s'.update_queue.Bounded B) := by
  refine ⟨fun tasks => ⟨rfl, rfl⟩,
    fun B tasks h => ⟨naive_new_bounded B tasks h, clever_new_bounded B tasks h⟩, ?_, ?_⟩
  · intro B hB s s' x hb h
    obtain ⟨h1, h2, h3⟩ := naive_step_bounded hB hb h
    exact ⟨h1, h2, naive_update_time s', h3⟩
  · intro B hB s s' x hb h
    obtain ⟨h1, h2, h3⟩ := clever_step_bounded hB hb h
    exact ⟨h1, h2, clever_update_time s', h3⟩

/-- Witness for the amended C8 at `B = 20` and the input
`[{id 1, q 0, dur 2}, {id 2, q 3, dur 4}]`, whose first step dispatches
task 1 and reaches clock 2. -/
theorem c8_clock_monotone_without_overflow_witness :
    (NaiveScheduler.new [⟨1, 0, 2⟩, ⟨2, 3, 4⟩]).current_time ≤
      (⟨2, [], [⟨2, 3, 4⟩]⟩ : NaiveScheduler).current_time ∧
    (⟨1, 0, 2⟩ : Task).queued_at ≤ (⟨2, [], [⟨2, 3, 4⟩]⟩ : NaiveScheduler).current_time ∧
    (⟨2, [], [⟨2, 3, 4⟩]⟩ : NaiveScheduler).update_queue.current_time =
      (⟨2, [], [⟨2, 3, 4⟩]⟩ : NaiveScheduler).current_time ∧
    (⟨2, [], [⟨2, 3, 4⟩]⟩ : NaiveScheduler).update_queue.Bounded 20 := by
  have hest := c8_clock_monotone_without_overflow.2.1 20 [⟨1, 0, 2⟩, ⟨2, 3, 4⟩] (by decide)
  exact c8_clock_monotone_without_overflow.2.2.1 20 (by decide)
    (NaiveScheduler.new [⟨1, 0, 2⟩, ⟨2, 3, 4⟩]) ⟨2, [], [⟨2, 3, 4⟩]⟩ ⟨1, 0, 2⟩
    hest.1 (by decide)

/-- C10 counterexample: a clock wrap never makes a later-arriving task
"appear eligible early" — the opposite happens.  Reached from
`[{id 1, q 4294967290, dur 100}, {id 4, q 4294967294, dur 50}, {id 2, q 1000, dur 5}]`,
the state with clock 1005 fast-forwards task 1 and wraps the clock to 94;
task 4 has truly arrived by the unwrapped completion time
`4294967290 + 100`, yet its `queued_at` exceeds the wrapped clock, so the
following admission step admits nothing at all: the arrived task appears
ineligible (admitted only later), and no task becomes eligible any earlier
than without the wrap. -/
theorem c10_no_early_eligibility_at_wrap :
    ((NaiveScheduler.new
        [⟨1, 4294967290, 100⟩, ⟨4, 4294967294, 50⟩, ⟨2, 1000, 5⟩]).get_next_task =
      some (⟨2, 1000, 5⟩,
        ⟨1005, [], [⟨4, 4294967294, 50⟩, ⟨1, 4294967290, 100⟩]⟩)) ∧
    ((⟨1005, [], [⟨4, 4294967294, 50⟩, ⟨1, 4294967290, 100⟩]⟩ :
        NaiveScheduler).update_queue =
      ⟨1005, [], [⟨4, 4294967294, 50⟩, ⟨1, 4294967290, 100⟩]⟩) ∧
    ((⟨1005, [], [⟨4, 4294967294, 50⟩, ⟨1, 4294967290, 100⟩]⟩ :
        NaiveScheduler).get_next_task =
      some (⟨1, 4294967290, 100⟩, ⟨94, [], [⟨4, 4294967294, 50⟩]⟩)) ∧
    ((4294967294 : Nat) ≤ 4294967290 + 100) ∧
    ¬ ((4294967294 : Nat) ≤ 94) ∧
    ((⟨94, [], [⟨4, 4294967294, 50⟩]⟩ : NaiveScheduler).update_queue =
      ⟨94, [], [⟨4, 4294967294, 50⟩]⟩) := by
  refine ⟨by decide, by decide, by decide, by decide, by decide, by decide⟩

/-- C10 (amended): the clock arithmetic of the model is carried out modulo
`2^32`, and there are inputs on which it wraps: on
`[{id 1, q 4294967290, dur 100}, {id 4, q 4294967294, dur 50}, {id 2, q 1000, dur 5}]`
the naive scheduler assigns `(4294967290 + 100) % 2^32 = 94` after a clock of
1005 (breaking monotonicity), and the already-arrived task 4 is left
unadmitted at the wrapped clock, deferring its dispatch to a further
fast-forward; the run still terminates with output `[2, 1, 4]`. -/
theorem c10_wrap_breaks_monotonicity_and_defers_arrivals :
    ((4294967290 + 100) % u32Mod = 94 ∧ (4294967290 + 100 : Nat) ≠ 94) ∧
    ((⟨1005, [], [⟨4, 4294967294, 50⟩, ⟨1, 4294967290, 100⟩]⟩ :
        NaiveScheduler).get_next_task =
      some (⟨1, 4294967290, 100⟩, ⟨94, [], [⟨4, 4294967294, 50⟩]⟩)) ∧
    ((94 : Nat) < 1005) ∧
    ((4294967294 : Nat) ≤ 4294967290 + 100 ∧ ¬ ((4294967294 : Nat) ≤ 94)) ∧
    (naive_execution_order
        [⟨1, 4294967290, 100⟩, ⟨4, 4294967294, 50⟩, ⟨2, 1000, 5⟩] = [2, 1, 4]) := by
  refine ⟨⟨by decide, by decide⟩, by decide, by decide, ⟨by decide, by decide⟩, by decide⟩

end CpuSched
